import Mathlib

/-
Verification development for the typed call-argument / call-result codec of
pchain-client-cli (src/parser.rs), shallowly embedded in Lean 4.

Modelling conventions:
- bytes are `List Nat`, each element < 256 where produced;
- Rust machine integers are `Nat` / `Int` with explicit `% 2^w` bounds;
- Rust `Result<T, DisplayMsg>` is `Except DisplayMsg T`;
- `serde_json::Value` is the inductive `Json` below (numbers as `Int`;
  floating-point literals are treated as unparseable, which only affects
  the text of error payloads, never success/failure of the codec);
- the borsh byte layout (little-endian integers, u32 length prefixes,
  option tags) is written out explicitly;
- error-message payload strings coming from external libraries (serde,
  borsh io errors) are abstracted by fixed strings where the exact text
  does not flow back into any observable equality of the codec.
-/

set_option maxRecDepth 4000
set_option linter.unusedVariables false

/-! ### Little-endian byte encoding of unsigned integers -/

/-- Little-endian byte encoding of `v` on `k` bytes (the write side of
borsh integer serialization; the value is implicitly truncated mod `256^k`,
matching Rust `as uN` casts / `to_le_bytes`). -/
def natLE : Nat → Nat → List Nat
  | 0, _ => []
  | k + 1, v => v % 256 :: natLE k (v / 256)

/-- Read `k` little-endian bytes from the front of a buffer (the read side
of borsh integer deserialization). -/
def readLE : Nat → List Nat → Except String (Nat × List Nat)
  | 0, l => .ok (0, l)
  | _ + 1, [] => .error "Unexpected length of input"
  | k + 1, b :: l =>
    match readLE k l with
    | .ok (v, r) => .ok (b + 256 * v, r)
    | .error e => .error e

theorem natLE_length (k v : Nat) : (natLE k v).length = k := by
  induction k generalizing v with
  | zero => simp [natLE]
  | succ k ih => simp [natLE, ih]

theorem readLE_natLE (k v : Nat) (rest : List Nat) (h : v < 256 ^ k) :
    readLE k (natLE k v ++ rest) = .ok (v, rest) := by
  induction k generalizing v with
  | zero =>
    have : v = 0 := by simpa using h
    subst this
    simp [natLE, readLE]
  | succ k ih =>
    have hdiv : v / 256 < 256 ^ k := by
      rw [Nat.div_lt_iff_lt_mul (by norm_num)]
      calc v < 256 ^ (k + 1) := h
        _ = 256 ^ k * 256 := by ring
    simp only [natLE, List.cons_append, readLE, List.append_eq]
    rw [ih (v / 256) hdiv]
    have hv : v % 256 + 256 * (v / 256) = v := by omega
    simp [hv]

theorem readLE_length_le (k : Nat) (l : List Nat) (v : Nat) (r : List Nat)
    (h : readLE k l = .ok (v, r)) : r.length ≤ l.length := by
  induction k generalizing l v r with
  | zero =>
    simp [readLE] at h
    rw [h.2]
  | succ k ih =>
    match l with
    | [] => simp [readLE] at h
    | b :: l =>
      simp only [readLE] at h
      cases hrec : readLE k l with
      | ok p =>
        obtain ⟨v', r'⟩ := p
        rw [hrec] at h
        simp at h
        have := ih l v' r' hrec
        simp [← h.2]
        omega
      | error e => rw [hrec] at h; simp at h

/-! ### Two's-complement (signed) encoding -/

/-- Write side of borsh signed-integer serialization: the two's-complement
little-endian bytes of `v` on `k` bytes. -/
def intSer (k : Nat) (v : Int) : List Nat :=
  natLE k (v % ((256 : Int) ^ k)).toNat

/-- Reinterpret a `k`-byte unsigned value as a two's-complement signed value. -/
def intOfNat (k : Nat) (n : Nat) : Int :=
  if (n : Int) < (256 : Int) ^ k / 2 then (n : Int) else (n : Int) - (256 : Int) ^ k

/-- Read side of borsh signed-integer deserialization. -/
def intDeser (k : Nat) (l : List Nat) : Except String (Int × List Nat) :=
  match readLE k l with
  | .ok (n, r) => .ok (intOfNat k n, r)
  | .error e => .error e

theorem intOfNat_emod (k : Nat) (v : Int)
    (h1 : -((256 : Int) ^ k / 2) ≤ v) (h2 : v < (256 : Int) ^ k / 2) :
    intOfNat k ((v % ((256 : Int) ^ k)).toNat) = v := by
  have hm : (0 : Int) < (256 : Int) ^ k := by positivity
  have heven : (256 : Int) ^ k = 1 ∨ (256 : Int) ^ k % 2 = 0 := by
    cases k with
    | zero => left; norm_num
    | succ k =>
      right
      rw [pow_succ, Int.mul_emod]
      norm_num
  have hb0 : 0 ≤ v % ((256 : Int) ^ k) := Int.emod_nonneg v (ne_of_gt hm)
  have hb1 : v % ((256 : Int) ^ k) < (256 : Int) ^ k := Int.emod_lt_of_pos v hm
  rcases le_or_lt 0 v with hv | hv
  · have he : v % ((256 : Int) ^ k) = v :=
      Int.emod_eq_of_lt hv (by omega)
    rw [he]
    unfold intOfNat
    rw [Int.toNat_of_nonneg hv]
    omega
  · have hvm : v + (256 : Int) ^ k = v + (256 : Int) ^ k * 1 := by ring
    have he : v % ((256 : Int) ^ k) = v + (256 : Int) ^ k := by
      have step : (v + (256 : Int) ^ k * 1) % ((256 : Int) ^ k) =
          v % ((256 : Int) ^ k) := Int.add_mul_emod_self_left v ((256 : Int) ^ k) 1
      rw [hvm] at *
      rw [← step]
      exact Int.emod_eq_of_lt (by omega) (by omega)
    rw [he]
    unfold intOfNat
    rw [Int.toNat_of_nonneg (by omega)]
    omega

theorem intDeser_intSer (k : Nat) (v : Int) (rest : List Nat)
    (h1 : -((256 : Int) ^ k / 2) ≤ v) (h2 : v < (256 : Int) ^ k / 2) :
    intDeser k (intSer k v ++ rest) = .ok (v, rest) := by
  have hm : (0 : Int) < (256 : Int) ^ k := by positivity
  have hb0 : 0 ≤ v % ((256 : Int) ^ k) := Int.emod_nonneg v (ne_of_gt hm)
  have hb1 : v % ((256 : Int) ^ k) < (256 : Int) ^ k := Int.emod_lt_of_pos v hm
  have hcast : ((256 ^ k : Nat) : Int) = (256 : Int) ^ k := by push_cast; ring
  have hlt : (v % ((256 : Int) ^ k)).toNat < 256 ^ k := by omega
  unfold intSer intDeser
  rw [readLE_natLE _ _ _ hlt]
  simp [intOfNat_emod k v h1 h2]

/-! ### UTF-8 (the byte form of Rust `String` payloads) -/

/-- UTF-8 encoding of one unicode scalar value (as produced by Rust when a
`String` is viewed as bytes). -/
def utf8EncodeCharNat (n : Nat) : List Nat :=
  if n < 0x80 then [n]
  else if n < 0x800 then [0xC0 + n / 64, 0x80 + n % 64]
  else if n < 0x10000 then [0xE0 + n / 4096, 0x80 + n / 64 % 64, 0x80 + n % 64]
  else [0xF0 + n / 0x40000, 0x80 + n / 4096 % 64, 0x80 + n / 64 % 64, 0x80 + n % 64]

/-- Decode one UTF-8 character from the front of a byte list, with the same
validation as Rust `String::from_utf8` (rejecting bad lead bytes, bad
continuation bytes, overlong forms, surrogates, and values above 0x10FFFF). -/
def utf8DecodeChar (l : List Nat) : Option (Nat × List Nat) :=
  match l with
  | [] => none
  | b0 :: rest =>
    if b0 < 0x80 then some (b0, rest)
    else if b0 < 0xC2 then none
    else if b0 < 0xE0 then
      match rest with
      | b1 :: r =>
        if 0x80 ≤ b1 ∧ b1 < 0xC0 then some ((b0 - 0xC0) * 64 + (b1 - 0x80), r)
        else none
      | [] => none
    else if b0 < 0xF0 then
      match rest with
      | b1 :: b2 :: r =>
        if 0x80 ≤ b1 ∧ b1 < 0xC0 ∧ 0x80 ≤ b2 ∧ b2 < 0xC0 then
          let v := (b0 - 0xE0) * 4096 + (b1 - 0x80) * 64 + (b2 - 0x80)
          if 0x800 ≤ v ∧ ¬(0xD800 ≤ v ∧ v < 0xE000) then some (v, r) else none
        else none
      | _ => none
    else if b0 < 0xF5 then
      match rest with
      | b1 :: b2 :: b3 :: r =>
        if 0x80 ≤ b1 ∧ b1 < 0xC0 ∧ 0x80 ≤ b2 ∧ b2 < 0xC0 ∧ 0x80 ≤ b3 ∧ b3 < 0xC0 then
          let v := (b0 - 0xF0) * 0x40000 + (b1 - 0x80) * 4096 + (b2 - 0x80) * 64 + (b3 - 0x80)
          if 0x10000 ≤ v ∧ v < 0x110000 then some (v, r) else none
        else none
      | _ => none
    else none

theorem utf8DecodeChar_encode (n : Nat) (rest : List Nat)
    (hv : n < 0xD800 ∨ (0xE000 ≤ n ∧ n < 0x110000)) :
    utf8DecodeChar (utf8EncodeCharNat n ++ rest) = some (n, rest) := by
  unfold utf8EncodeCharNat
  by_cases h1 : n < 0x80
  · simp only [if_pos h1, List.cons_append, List.nil_append]
    unfold utf8DecodeChar
    simp [h1]
  · by_cases h2 : n < 0x800
    · simp only [if_neg h1, if_pos h2, List.cons_append, List.nil_append]
      unfold utf8DecodeChar
      have c1 : ¬(0xC0 + n / 64 < 0x80) := by omega
      have c2 : ¬(0xC0 + n / 64 < 0xC2) := by omega
      have c3 : 0xC0 + n / 64 < 0xE0 := by omega
      have c4 : 0x80 ≤ 0x80 + n % 64 ∧ 0x80 + n % 64 < 0xC0 := by omega
      simp only [if_neg c1, if_neg c2, if_pos c3, if_pos c4]
      have : (0xC0 + n / 64 - 0xC0) * 64 + (0x80 + n % 64 - 0x80) = n := by omega
      rw [this]
    · by_cases h3 : n < 0x10000
      · simp only [if_neg h1, if_neg h2, if_pos h3, List.cons_append, List.nil_append]
        unfold utf8DecodeChar
        have c1 : ¬(0xE0 + n / 4096 < 0x80) := by omega
        have c2 : ¬(0xE0 + n / 4096 < 0xC2) := by omega
        have c3 : ¬(0xE0 + n / 4096 < 0xE0) := by omega
        have c4 : 0xE0 + n / 4096 < 0xF0 := by omega
        have c5 : 0x80 ≤ 0x80 + n / 64 % 64 ∧ 0x80 + n / 64 % 64 < 0xC0 ∧
            0x80 ≤ 0x80 + n % 64 ∧ 0x80 + n % 64 < 0xC0 := by omega
        simp only [if_neg c1, if_neg c2, if_neg c3, if_pos c4, if_pos c5]
        have hval : (0xE0 + n / 4096 - 0xE0) * 4096 + (0x80 + n / 64 % 64 - 0x80) * 64 +
            (0x80 + n % 64 - 0x80) = n := by omega
        simp only [hval]
        have c6 : 0x800 ≤ n ∧ ¬(0xD800 ≤ n ∧ n < 0xE000) := by omega
        simp only [if_pos c6]
      · have h4 : n < 0x110000 := by omega
        simp only [if_neg h1, if_neg h2, if_neg h3, List.cons_append, List.nil_append]
        unfold utf8DecodeChar
        have c1 : ¬(0xF0 + n / 0x40000 < 0x80) := by omega
        have c2 : ¬(0xF0 + n / 0x40000 < 0xC2) := by omega
        have c3 : ¬(0xF0 + n / 0x40000 < 0xE0) := by omega
        have c4 : ¬(0xF0 + n / 0x40000 < 0xF0) := by omega
        have c5 : 0xF0 + n / 0x40000 < 0xF5 := by omega
        have c6 : 0x80 ≤ 0x80 + n / 4096 % 64 ∧ 0x80 + n / 4096 % 64 < 0xC0 ∧
            0x80 ≤ 0x80 + n / 64 % 64 ∧ 0x80 + n / 64 % 64 < 0xC0 ∧
            0x80 ≤ 0x80 + n % 64 ∧ 0x80 + n % 64 < 0xC0 := by omega
        simp only [if_neg c1, if_neg c2, if_neg c3, if_neg c4, if_pos c5, if_pos c6]
        have hval : (0xF0 + n / 0x40000 - 0xF0) * 0x40000 + (0x80 + n / 4096 % 64 - 0x80) * 4096 +
            (0x80 + n / 64 % 64 - 0x80) * 64 + (0x80 + n % 64 - 0x80) = n := by omega
        simp only [hval]
        have c7 : 0x10000 ≤ n ∧ n < 0x110000 := by omega
        simp only [if_pos c7]

theorem utf8DecodeChar_length_lt (l : List Nat) (n : Nat) (r : List Nat)
    (h : utf8DecodeChar l = some (n, r)) : r.length < l.length := by
  unfold utf8DecodeChar at h
  match l with
  | [] => simp at h
  | b0 :: rest =>
    simp only at h
    split at h
    · simp at h
      rw [← h.2]
      simp
    · split at h
      · simp at h
      · split at h
        · match rest with
          | [] => simp at h
          | b1 :: r' =>
            simp only at h
            split at h
            · simp at h
              rw [← h.2]
              simp
              omega
            · simp at h
        · split at h
          · match rest with
            | [] => simp at h
            | [b1] => simp at h
            | b1 :: b2 :: r' =>
              simp only at h
              split at h
              · split at h
                · simp at h
                  rw [← h.2]
                  simp
                  omega
                · simp at h
              · simp at h
          · split at h
            · match rest with
              | [] => simp at h
              | [b1] => simp at h
              | [b1, b2] => simp at h
              | b1 :: b2 :: b3 :: r' =>
                simp only at h
                split at h
                · split at h
                  · simp at h
                    rw [← h.2]
                    simp
                    omega
                  · simp at h
                · simp at h
            · simp at h

/-- UTF-8 byte sequence of a list of characters. -/
def utf8Encode (s : List Char) : List Nat :=
  (s.map (fun c => utf8EncodeCharNat c.toNat)).flatten

/-- Fuel-bounded UTF-8 decoding loop; each step consumes at least one byte,
so fuel `l.length + 1` (supplied by `utf8DecodeList`) never runs out. -/
def utf8DecodeListAux : Nat → List Nat → Option (List Char)
  | _, [] => some []
  | 0, _ :: _ => none
  | fuel + 1, b :: rest =>
    match utf8DecodeChar (b :: rest) with
    | none => none
    | some (n, r) =>
      match utf8DecodeListAux fuel r with
      | none => none
      | some cs => some (Char.ofNat n :: cs)

/-- Decode a whole byte list as UTF-8 (the model of `String::from_utf8`). -/
def utf8DecodeList (l : List Nat) : Option (List Char) :=
  utf8DecodeListAux (l.length + 1) l

theorem utf8EncodeCharNat_ne_nil (n : Nat) : utf8EncodeCharNat n ≠ [] := by
  unfold utf8EncodeCharNat
  split_ifs <;> simp

theorem char_toNat_valid (c : Char) :
    c.toNat < 0xD800 ∨ (0xE000 ≤ c.toNat ∧ c.toNat < 0x110000) := by
  have h := c.valid
  unfold Char.toNat
  rcases h with h | h
  · left; exact h
  · right; omega

theorem utf8DecodeListAux_encode (s : List Char) (fuel : Nat)
    (hf : (utf8Encode s).length < fuel) :
    utf8DecodeListAux fuel (utf8Encode s) = some s := by
  induction s generalizing fuel with
  | nil =>
    have h0 : utf8Encode [] = ([] : List Nat) := by simp [utf8Encode]
    rw [h0]
    cases fuel <;> rfl
  | cons c cs ih =>
    have henc : utf8Encode (c :: cs) = utf8EncodeCharNat c.toNat ++ utf8Encode cs := by
      simp [utf8Encode]
    have hcl : 1 ≤ (utf8EncodeCharNat c.toNat).length := by
      cases hc : utf8EncodeCharNat c.toNat with
      | nil => exact absurd hc (utf8EncodeCharNat_ne_nil c.toNat)
      | cons b bs => simp
    cases fuel with
    | zero => rw [henc] at hf; simp at hf
    | succ fuel =>
      cases hc : utf8EncodeCharNat c.toNat with
      | nil => exact absurd hc (utf8EncodeCharNat_ne_nil c.toNat)
      | cons b bs =>
        rw [henc, hc, List.cons_append]
        have hdec : utf8DecodeChar (b :: (bs ++ utf8Encode cs)) = some (c.toNat, utf8Encode cs) := by
          rw [← List.cons_append, ← hc]
          exact utf8DecodeChar_encode c.toNat (utf8Encode cs) (char_toNat_valid c)
        have hfs : (utf8Encode cs).length < fuel := by
          rw [henc] at hf
          simp at hf
          omega
        simp only [utf8DecodeListAux, hdec, ih fuel hfs, Char.ofNat_toNat]

theorem utf8DecodeList_encode (s : List Char) :
    utf8DecodeList (utf8Encode s) = some s := by
  unfold utf8DecodeList
  exact utf8DecodeListAux_encode s _ (by omega)

/-! ### Rendering (the model of Rust `format!` with the Debug formatter,
which is what the decode path produces for every deserialized value) -/

/-- Decimal digit characters of `n` (most significant first); the fuel
argument only bounds the recursion depth (one decimal digit per unit) and is
always supplied large enough by `natDecDigits`. -/
def natDecAux : Nat → Nat → List Char
  | 0, _ => []
  | fuel + 1, n =>
    if n < 10 then [Char.ofNat (48 + n)]
    else natDecAux fuel (n / 10) ++ [Char.ofNat (48 + n % 10)]

/-- Decimal digit characters of `n` (most significant first). -/
def natDecDigits (n : Nat) : List Char := natDecAux (n + 1) n

def renderNat (n : Nat) : String := ⟨natDecDigits n⟩

/-- Debug/Display rendering of a signed integer (Rust prints a leading
minus sign for negative values, decimal digits otherwise). -/
def renderInt (v : Int) : String :=
  if v < 0 then "-" ++ renderNat (-v).toNat else renderNat v.toNat

/-- Lowercase hexadecimal digit characters of `n` (most significant first),
as produced by Rust `\u` escapes in Debug output. -/
def natHexAux : Nat → Nat → List Char
  | 0, _ => []
  | fuel + 1, n =>
    let digit := fun (d : Nat) => if d < 10 then Char.ofNat (48 + d) else Char.ofNat (87 + d)
    if n < 16 then [digit n]
    else natHexAux fuel (n / 16) ++ [digit (n % 16)]

def natHexDigits (n : Nat) : List Char := natHexAux (n + 1) n

/-- Escape one character the way the Rust Debug formatter for `str` does:
`\t`, `\r`, `\n`, `\\`, `\"` are escaped by name, other control characters
(and DEL) become `\u` braces escapes.  (The full `char::escape_debug`
printability tables for non-ASCII characters are approximated by printing
every character at or above 0x20, except DEL, verbatim; all inputs used by
the claims are ASCII.) -/
def escapeDebugChar (c : Char) : List Char :=
  if c = '\t' then ['\\', 't']
  else if c = '\r' then ['\\', 'r']
  else if c = '\n' then ['\\', 'n']
  else if c = '\\' then ['\\', '\\']
  else if c = '"' then ['\\', '"']
  else if c.toNat < 0x20 ∨ c.toNat = 0x7F then
    '\\' :: 'u' :: Char.ofNat 123 :: (natHexDigits c.toNat ++ [Char.ofNat 125])
  else [c]

/-- Debug rendering of a Rust `String` / `str`: quotes around the escaped
characters. -/
def renderDebugStr (s : List Char) : String :=
  ⟨'"' :: ((s.map escapeDebugChar).flatten ++ ['"'])⟩

/-- Debug rendering of a vector or array: comma-space separated elements in
square brackets. -/
def renderDebugList (render : α → String) (l : List α) : String :=
  "[" ++ String.intercalate ", " (l.map render) ++ "]"

/-- Debug rendering of an `Option`. -/
def renderDebugOption (render : α → String) : Option α → String
  | none => "None"
  | some a => "Some(" ++ render a ++ ")"

/-! ### The JSON value model (`serde_json::Value`)

Numbers are modelled as unbounded integers: `serde_json` parses integer
literals of arbitrary magnitude on the direct `from_str::<iN/uN>` paths used
by the codec, and no claim involves floating-point values (a float literal
simply fails to parse in this model, which only changes the text of an error
payload). -/

inductive Json where
  | null : Json
  | bool (b : Bool) : Json
  | num (n : Int) : Json
  | str (s : String) : Json
  | arr (elems : List Json) : Json
  | obj (fields : List (String × Json)) : Json

/-- Indexing a `serde_json::Value` with a string key: a missing key or a
non-object value yields `Null`. -/
def Json.getField : Json → String → Json
  | .obj fields, k => (((fields.find? (fun p => p.1 == k)).map Prod.snd)).getD .null
  | _, _ => .null

/-- The model of `Value::as_str`. -/
def Json.asStr : Json → Option String
  | .str s => some s
  | _ => none

/-! ### A computable structural size for JSON values

Used as recursion fuel for the two loops of the source that recurse through
JSON structure (`serialize_argument_value` and the schema flattener); the
source loops terminate structurally, and the fuel below provably exceeds
the recursion depth, so the fuel-exhaustion branches are dead code. -/

mutual

def jsonSize : Json → Nat
  | .null => 1
  | .bool _ => 1
  | .num _ => 1
  | .str _ => 1
  | .arr l => 1 + jsonSizeArr l
  | .obj fs => 1 + jsonSizeObj fs

def jsonSizeArr : List Json → Nat
  | [] => 1
  | j :: t => 1 + jsonSize j + jsonSizeArr t

def jsonSizeObj : List (String × Json) → Nat
  | [] => 1
  | p :: t => 1 + jsonSize p.2 + jsonSizeObj t

end

theorem jsonSize_pos (v : Json) : 1 ≤ jsonSize v := by
  cases v <;> simp [jsonSize]

theorem jsonSizeArr_pos (l : List Json) : 1 ≤ jsonSizeArr l := by
  cases l <;> simp [jsonSizeArr] <;> omega

theorem jsonSizeObj_mem (fs : List (String × Json)) (p : String × Json)
    (h : p ∈ fs) : jsonSize p.2 < jsonSizeObj fs := by
  induction fs with
  | nil => cases h
  | cons q t ih =>
    rcases List.mem_cons.mp h with h1 | h1
    · subst h1
      simp [jsonSizeObj]
      omega
    · have := ih h1
      simp [jsonSizeObj]
      omega

theorem jsonSize_getField_le (v : Json) (k : String) :
    jsonSize (v.getField k) ≤ jsonSize v := by
  have hnull : jsonSize Json.null = 1 := rfl
  cases v with
  | obj fields =>
    simp only [Json.getField]
    match hf : fields.find? (fun p => p.1 == k) with
    | none =>
      rw [hf]
      simp only [Option.map_none', Option.getD_none, hnull, jsonSize]
      omega
    | some p =>
      rw [hf]
      have hmem : p ∈ fields := List.mem_of_find?_eq_some hf
      have h1 := jsonSizeObj_mem fields p hmem
      simp only [Option.map_some', Option.getD_some, jsonSize]
      omega
  | null => simp [Json.getField]
  | bool b => simp only [Json.getField, hnull, jsonSize]; omega
  | num n => simp only [Json.getField, hnull, jsonSize]; omega
  | str s => simp only [Json.getField, hnull, jsonSize]; omega
  | arr l =>
    simp only [Json.getField, hnull, jsonSize]
    have := jsonSizeArr_pos l
    omega

theorem sum_map_jsonSize_lt_arr (l : List Json) :
    (l.map jsonSize).sum < jsonSizeArr l := by
  induction l with
  | nil => simp [jsonSizeArr]
  | cons a t ih =>
    simp [jsonSizeArr]
    omega

/-! ### JSON text parsing (the model of `serde_json::from_str`)

The encode path of the codec re-parses every textual `argument_value`
as JSON (§4.2 rule 1).  The parser below follows the JSON grammar as
`serde_json` accepts it for the target types of the codec: all standard
escapes including `\u` with surrogate pairs, insignificant whitespace,
no leading zeros, and the whole input must be a single value.  Number
literals with a fraction or exponent part are rejected here; `serde_json`
would parse them as floats and then fail the typed extraction for every
integer target of the codec, so only the (abstracted) error-payload text
differs.  The recursion is fuel-based; the top entry point supplies fuel
larger than any possible recursion depth for the given input. -/

def isWsChar (c : Char) : Bool :=
  c = ' ' || c = '\t' || c = '\n' || c = '\r'

def skipWs (l : List Char) : List Char := l.dropWhile isWsChar

def isDigitChar (c : Char) : Bool := '0' ≤ c && c ≤ '9'

def hexVal (c : Char) : Option Nat :=
  if '0' ≤ c ∧ c ≤ '9' then some (c.toNat - 48)
  else if 'a' ≤ c ∧ c ≤ 'f' then some (c.toNat - 87)
  else if 'A' ≤ c ∧ c ≤ 'F' then some (c.toNat - 55)
  else none

/-- Parse exactly four hex digits. -/
def parseHex4 (l : List Char) : Option (Nat × List Char) :=
  match l with
  | c1 :: c2 :: c3 :: c4 :: rest =>
    match hexVal c1, hexVal c2, hexVal c3, hexVal c4 with
    | some d1, some d2, some d3, some d4 =>
      some (d1 * 4096 + d2 * 256 + d3 * 16 + d4, rest)
    | _, _, _, _ => none
  | _ => none

/-- Parse the body of a JSON string literal (after the opening quote),
returning the decoded characters and the input after the closing quote. -/
def parseJsonStringBody : Nat → List Char → Option (List Char × List Char)
  | 0, _ => none
  | _ + 1, [] => none
  | fuel + 1, c :: rest =>
    if c = '"' then some ([], rest)
    else if c = '\\' then
      match rest with
      | [] => none
      | e :: rest2 =>
        let cont := fun (ch : Char) (r : List Char) =>
          match parseJsonStringBody fuel r with
          | some (s, r') => some (ch :: s, r')
          | none => none
        if e = '"' then cont '"' rest2
        else if e = '\\' then cont '\\' rest2
        else if e = '/' then cont '/' rest2
        else if e = 'b' then cont (Char.ofNat 8) rest2
        else if e = 'f' then cont (Char.ofNat 12) rest2
        else if e = 'n' then cont '\n' rest2
        else if e = 'r' then cont '\r' rest2
        else if e = 't' then cont '\t' rest2
        else if e = 'u' then
          match parseHex4 rest2 with
          | none => none
          | some (n, rest3) =>
            if 0xD800 ≤ n ∧ n < 0xDC00 then
              match rest3 with
              | '\\' :: 'u' :: rest4 =>
                match parseHex4 rest4 with
                | some (m, rest5) =>
                  if 0xDC00 ≤ m ∧ m < 0xE000 then
                    cont (Char.ofNat (0x10000 + (n - 0xD800) * 0x400 + (m - 0xDC00))) rest5
                  else none
                | none => none
              | _ => none
            else if 0xDC00 ≤ n ∧ n < 0xE000 then none
            else cont (Char.ofNat n) rest3
        else none
    else if c.toNat < 0x20 then none
    else
      match parseJsonStringBody fuel rest with
      | some (s, r') => some (c :: s, r')
      | none => none

def digitsToNat (l : List Char) : Nat :=
  l.foldl (fun acc c => acc * 10 + (c.toNat - 48)) 0

/-- Parse a JSON integer literal (optional minus, no leading zeros); a
fraction or exponent part makes the literal non-integral and is rejected
(see section comment). -/
def parseJsonNumber (l : List Char) : Option (Int × List Char) :=
  let core := fun (l2 : List Char) =>
    match l2 with
    | [] => none
    | c :: rest =>
      if c = '0' then some ((0 : Nat), rest)
      else if isDigitChar c then
        let ds := rest.takeWhile isDigitChar
        some (digitsToNat (c :: ds), rest.dropWhile isDigitChar)
      else none
  let checkTail := fun (r : List Char) =>
    match r with
    | c :: _ => if c = '.' ∨ c = 'e' ∨ c = 'E' then none else some r
    | [] => some r
  match l with
  | '-' :: rest =>
    match core rest with
    | some (n, r) =>
      match checkTail r with
      | some r => some (-(n : Int), r)
      | none => none
    | none => none
  | _ =>
    match core l with
    | some (n, r) =>
      match checkTail r with
      | some r => some ((n : Int), r)
      | none => none
    | none => none

mutual

/-- Parse one JSON value. -/
def parseJsonValue : Nat → List Char → Option (Json × List Char)
  | 0, _ => none
  | fuel + 1, l =>
    match skipWs l with
    | [] => none
    | c :: rest =>
      if c = 'n' then
        match rest with
        | 'u' :: 'l' :: 'l' :: r => some (.null, r)
        | _ => none
      else if c = 't' then
        match rest with
        | 'r' :: 'u' :: 'e' :: r => some (.bool true, r)
        | _ => none
      else if c = 'f' then
        match rest with
        | 'a' :: 'l' :: 's' :: 'e' :: r => some (.bool false, r)
        | _ => none
      else if c = '"' then
        match parseJsonStringBody (rest.length + 1) rest with
        | some (s, r) => some (.str ⟨s⟩, r)
        | none => none
      else if c = '[' then
        match skipWs rest with
        | ']' :: r => some (.arr [], r)
        | _ => parseJsonArrayElems fuel rest []
      else if c.toNat = 123 then
        match skipWs rest with
        | r2 =>
          if r2.head? = some (Char.ofNat 125) then some (.obj [], r2.tail)
          else parseJsonObjFields fuel rest []
      else if c = '-' ∨ isDigitChar c then
        match parseJsonNumber (c :: rest) with
        | some (n, r) => some (.num n, r)
        | none => none
      else none

/-- Parse the comma-separated elements of a JSON array (after `[`),
accumulating parsed elements in reverse. -/
def parseJsonArrayElems : Nat → List Char → List Json → Option (Json × List Char)
  | 0, _, _ => none
  | fuel + 1, l, acc =>
    match parseJsonValue fuel l with
    | none => none
    | some (v, r) =>
      match skipWs r with
      | ',' :: r2 => parseJsonArrayElems fuel r2 (v :: acc)
      | ']' :: r2 => some (.arr (v :: acc).reverse, r2)
      | _ => none

/-- Parse the members of a JSON object (after the opening brace),
accumulating parsed fields in reverse. -/
def parseJsonObjFields : Nat → List Char → List (String × Json) → Option (Json × List Char)
  | 0, _, _ => none
  | fuel + 1, l, acc =>
    match skipWs l with
    | '"' :: r =>
      match parseJsonStringBody (r.length + 1) r with
      | none => none
      | some (key, r2) =>
        match skipWs r2 with
        | ':' :: r3 =>
          match parseJsonValue fuel r3 with
          | none => none
          | some (v, r4) =>
            match skipWs r4 with
            | ',' :: r5 => parseJsonObjFields fuel r5 ((⟨key⟩, v) :: acc)
            | r5 =>
              if r5.head? = some (Char.ofNat 125) then some (.obj ((⟨key⟩, v) :: acc).reverse, r5.tail)
              else none
        | _ => none
    | _ => none

end

/-- Whole-input JSON parse: the model of `serde_json::from_str` (one value,
possibly surrounded by whitespace). -/
def jsonTextParse (s : String) : Option Json :=
  match parseJsonValue (4 * (s.data.length + 1)) s.data with
  | some (j, r) => if skipWs r = [] then some j else none
  | none => none

/-! ### The supported flat types

`serialize_primitive_argument_value` and `deserialize_primitive_argument_value`
are macro-generated cascades of string comparisons, one branch per concrete
Rust type; `FlatTy` below enumerates exactly the types appearing in those
macro invocations, and the dispatch lists `encodeTys` / `decodeTys` reproduce
the two macro argument lists (note that the deserialize list has no
`Vec<Vec<T>>` and no `Option<Vec<T>>` entries). -/

inductive PrimTy where
  | i8 | i16 | i32 | i64 | i128 | u8 | u16 | u32 | u64 | u128 | bool | string
deriving DecidableEq

/-- The Lean type of values of a primitive Rust type. -/
@[reducible] def PrimTy.carrier : PrimTy → Type
  | .i8 | .i16 | .i32 | .i64 | .i128 => Int
  | .u8 | .u16 | .u32 | .u64 | .u128 => Nat
  | .bool => Bool
  | .string => List Char

/-- Borsh deserialization of a Rust `bool`: one byte, 0 or 1, anything else
is an error. -/
def boolDeser (l : List Nat) : Except String (Bool × List Nat) :=
  match l with
  | [] => .error "Unexpected length of input"
  | b :: r =>
    if b = 0 then .ok (false, r)
    else if b = 1 then .ok (true, r)
    else .error "Invalid bool representation"

/-- Borsh serialization of a Rust `String`: 4-byte little-endian byte length,
then the UTF-8 bytes. -/
def strSer (s : List Char) : List Nat :=
  natLE 4 (utf8Encode s).length ++ utf8Encode s

/-- Borsh deserialization of a Rust `String`: 4-byte little-endian length,
that many bytes, validated as UTF-8. -/
def strDeser (l : List Nat) : Except String (List Char × List Nat) :=
  match readLE 4 l with
  | .error e => .error e
  | .ok (len, r) =>
    if len ≤ r.length then
      match utf8DecodeList (r.take len) with
      | some s => .ok (s, r.drop len)
      | none => .error "invalid utf-8 sequence"
    else .error "Unexpected length of input"

def PrimTy.ser : (t : PrimTy) → t.carrier → List Nat
  | .i8, v => intSer 1 v
  | .i16, v => intSer 2 v
  | .i32, v => intSer 4 v
  | .i64, v => intSer 8 v
  | .i128, v => intSer 16 v
  | .u8, v => natLE 1 v
  | .u16, v => natLE 2 v
  | .u32, v => natLE 4 v
  | .u64, v => natLE 8 v
  | .u128, v => natLE 16 v
  | .bool, b => [if b then 1 else 0]
  | .string, s => strSer s

def PrimTy.deser : (t : PrimTy) → List Nat → Except String (t.carrier × List Nat)
  | .i8, l => intDeser 1 l
  | .i16, l => intDeser 2 l
  | .i32, l => intDeser 4 l
  | .i64, l => intDeser 8 l
  | .i128, l => intDeser 16 l
  | .u8, l => readLE 1 l
  | .u16, l => readLE 2 l
  | .u32, l => readLE 4 l
  | .u64, l => readLE 8 l
  | .u128, l => readLE 16 l
  | .bool, l => boolDeser l
  | .string, l => strDeser l

/-- Debug rendering of a primitive value (what `format!` with the Debug
formatter prints for the deserialized Rust value). -/
def PrimTy.render : (t : PrimTy) → t.carrier → String
  | .i8, v | .i16, v | .i32, v | .i64, v | .i128, v => renderInt v
  | .u8, v | .u16, v | .u32, v | .u64, v | .u128, v => renderNat v
  | .bool, b => if b then "true" else "false"
  | .string, s => renderDebugStr s

/-- Range validity of a primitive value (automatic in Rust, explicit here
because Lean integers are unbounded). -/
def PrimTy.valid : (t : PrimTy) → t.carrier → Prop
  | .i8, v => -(2 ^ 7 : Int) ≤ v ∧ v < 2 ^ 7
  | .i16, v => -(2 ^ 15 : Int) ≤ v ∧ v < 2 ^ 15
  | .i32, v => -(2 ^ 31 : Int) ≤ v ∧ v < 2 ^ 31
  | .i64, v => -(2 ^ 63 : Int) ≤ v ∧ v < 2 ^ 63
  | .i128, v => -(2 ^ 127 : Int) ≤ v ∧ v < 2 ^ 127
  | .u8, v => v < 2 ^ 8
  | .u16, v => v < 2 ^ 16
  | .u32, v => v < 2 ^ 32
  | .u64, v => v < 2 ^ 64
  | .u128, v => v < 2 ^ 128
  | .bool, _ => True
  | .string, s => (utf8Encode s).length < 2 ^ 32

theorem prim_deser_ser (t : PrimTy) (v : t.carrier) (rest : List Nat)
    (h : t.valid v) : t.deser (t.ser v ++ rest) = .ok (v, rest) := by
  cases t with
  | i8 =>
    have h' : -(2 ^ 7 : Int) ≤ v ∧ v < 2 ^ 7 := h
    exact intDeser_intSer 1 v rest (by rw [show ((256 : Int) ^ 1 / 2) = 2 ^ 7 by norm_num]; exact h'.1)
      (by rw [show ((256 : Int) ^ 1 / 2) = 2 ^ 7 by norm_num]; exact h'.2)
  | i16 =>
    have h' : -(2 ^ 15 : Int) ≤ v ∧ v < 2 ^ 15 := h
    exact intDeser_intSer 2 v rest (by rw [show ((256 : Int) ^ 2 / 2) = 2 ^ 15 by norm_num]; exact h'.1)
      (by rw [show ((256 : Int) ^ 2 / 2) = 2 ^ 15 by norm_num]; exact h'.2)
  | i32 =>
    have h' : -(2 ^ 31 : Int) ≤ v ∧ v < 2 ^ 31 := h
    exact intDeser_intSer 4 v rest (by rw [show ((256 : Int) ^ 4 / 2) = 2 ^ 31 by norm_num]; exact h'.1)
      (by rw [show ((256 : Int) ^ 4 / 2) = 2 ^ 31 by norm_num]; exact h'.2)
  | i64 =>
    have h' : -(2 ^ 63 : Int) ≤ v ∧ v < 2 ^ 63 := h
    exact intDeser_intSer 8 v rest (by rw [show ((256 : Int) ^ 8 / 2) = 2 ^ 63 by norm_num]; exact h'.1)
      (by rw [show ((256 : Int) ^ 8 / 2) = 2 ^ 63 by norm_num]; exact h'.2)
  | i128 =>
    have h' : -(2 ^ 127 : Int) ≤ v ∧ v < 2 ^ 127 := h
    exact intDeser_intSer 16 v rest (by rw [show ((256 : Int) ^ 16 / 2) = 2 ^ 127 by norm_num]; exact h'.1)
      (by rw [show ((256 : Int) ^ 16 / 2) = 2 ^ 127 by norm_num]; exact h'.2)
  | u8 =>
    have h' : v < 2 ^ 8 := h
    exact readLE_natLE 1 v rest (by rw [show (256 : Nat) ^ 1 = 2 ^ 8 by norm_num]; exact h')
  | u16 =>
    have h' : v < 2 ^ 16 := h
    exact readLE_natLE 2 v rest (by rw [show (256 : Nat) ^ 2 = 2 ^ 16 by norm_num]; exact h')
  | u32 =>
    have h' : v < 2 ^ 32 := h
    exact readLE_natLE 4 v rest (by rw [show (256 : Nat) ^ 4 = 2 ^ 32 by norm_num]; exact h')
  | u64 =>
    have h' : v < 2 ^ 64 := h
    exact readLE_natLE 8 v rest (by rw [show (256 : Nat) ^ 8 = 2 ^ 64 by norm_num]; exact h')
  | u128 =>
    have h' : v < 2 ^ 128 := h
    exact readLE_natLE 16 v rest (by rw [show (256 : Nat) ^ 16 = 2 ^ 128 by norm_num]; exact h')
  | bool => cases v <;> simp [PrimTy.ser, PrimTy.deser, boolDeser]
  | string =>
    have h' : (utf8Encode v).length < 2 ^ 32 := h
    show strDeser (strSer v ++ rest) = .ok (v, rest)
    unfold strSer strDeser
    rw [List.append_assoc]
    rw [readLE_natLE 4 (utf8Encode v).length _
      (by rw [show (256 : Nat) ^ 4 = 2 ^ 32 by norm_num]; exact h')]
    have hle : (utf8Encode v).length ≤ (utf8Encode v ++ rest).length := by simp
    simp [hle, List.take_left, List.drop_left, utf8DecodeList_encode v]

/-- Borsh serialization of a Rust `Vec<T>`: 4-byte little-endian element
count (`len as u32`), then the element encodings concatenated. -/
def serList (serE : α → List Nat) (l : List α) : List Nat :=
  natLE 4 l.length ++ (l.map serE).flatten

/-- Read `n` consecutive borsh-encoded elements. -/
def deserN (deserE : List Nat → Except String (α × List Nat)) :
    Nat → List Nat → Except String (List α × List Nat)
  | 0, l => .ok ([], l)
  | n + 1, l =>
    match deserE l with
    | .error e => .error e
    | .ok (a, r) =>
      match deserN deserE n r with
      | .error e => .error e
      | .ok (as, r') => .ok (a :: as, r')

/-- Borsh deserialization of a Rust `Vec<T>`. -/
def deserList (deserE : List Nat → Except String (α × List Nat))
    (l : List Nat) : Except String (List α × List Nat) :=
  match readLE 4 l with
  | .error e => .error e
  | .ok (n, r) => deserN deserE n r

/-- Borsh serialization of a Rust `Option<T>`: 1-byte tag, then the payload
if present. -/
def serOpt (serE : α → List Nat) : Option α → List Nat
  | none => [0]
  | some a => 1 :: serE a

/-- Borsh deserialization of a Rust `Option<T>`. -/
def deserOpt (deserE : List Nat → Except String (α × List Nat))
    (l : List Nat) : Except String (Option α × List Nat) :=
  match l with
  | [] => .error "Unexpected length of input"
  | b :: r =>
    if b = 0 then .ok (none, r)
    else if b = 1 then
      match deserE r with
      | .ok (a, r') => .ok (some a, r')
      | .error e => .error e
    else .error "Invalid Option representation"

/-- Read exactly `n` raw bytes (borsh `[u8; N]`). -/
def readBytes (n : Nat) (l : List Nat) : Except String (List Nat × List Nat) :=
  if n ≤ l.length then .ok (l.take n, l.drop n) else .error "Unexpected length of input"

theorem deserN_flatten (deserE : List Nat → Except String (α × List Nat))
    (serE : α → List Nat) (l : List α) (rest : List Nat)
    (h : ∀ a ∈ l, ∀ r, deserE (serE a ++ r) = .ok (a, r)) :
    deserN deserE l.length ((l.map serE).flatten ++ rest) = .ok (l, rest) := by
  induction l with
  | nil => simp [deserN]
  | cons a as ih =>
    have ha := h a (by simp)
    have has : ∀ x ∈ as, ∀ r, deserE (serE x ++ r) = .ok (x, r) := by
      intro x hx r
      exact h x (by simp [hx]) r
    simp only [List.map_cons, List.flatten_cons, List.length_cons, List.append_assoc, deserN]
    rw [ha ((as.map serE).flatten ++ rest)]
    simp [ih has]

theorem deserList_serList (deserE : List Nat → Except String (α × List Nat))
    (serE : α → List Nat) (l : List α) (rest : List Nat)
    (hlen : l.length < 2 ^ 32)
    (h : ∀ a ∈ l, ∀ r, deserE (serE a ++ r) = .ok (a, r)) :
    deserList deserE (serList serE l ++ rest) = .ok (l, rest) := by
  unfold serList deserList
  rw [List.append_assoc]
  rw [readLE_natLE 4 l.length _ (by rw [show (256 : Nat) ^ 4 = 2 ^ 32 by norm_num]; exact hlen)]
  exact deserN_flatten deserE serE l rest h

theorem deserOpt_serOpt (deserE : List Nat → Except String (α × List Nat))
    (serE : α → List Nat) (o : Option α) (rest : List Nat)
    (h : ∀ a ∈ o, ∀ r, deserE (serE a ++ r) = .ok (a, r)) :
    deserOpt deserE (serOpt serE o ++ rest) = .ok (o, rest) := by
  cases o with
  | none => simp [serOpt, deserOpt]
  | some a =>
    have ha := h a (by simp)
    simp only [serOpt, List.cons_append, deserOpt]
    norm_num
    rw [ha rest]

theorem readBytes_exact (n : Nat) (v rest : List Nat) (h : v.length = n) :
    readBytes n (v ++ rest) = .ok (v, rest) := by
  unfold readBytes
  have hle : n ≤ (v ++ rest).length := by simp; omega
  rw [if_pos hle]
  subst h
  rw [List.take_left, List.drop_left]

/-- The flat (non-`Custom`) types appearing in the macro dispatch cascades of
`serialize_primitive_argument_value` / `deserialize_primitive_argument_value`. -/
inductive FlatTy where
  | prim (p : PrimTy)
  | vec (p : PrimTy)
  | opt (p : PrimTy)
  | vecVec (p : PrimTy)
  | optVec (p : PrimTy)
  | vecOpt (p : PrimTy)
  | arr32
  | arr64
  | optArr32
  | optArr64
deriving DecidableEq

@[reducible] def FlatTy.carrier : FlatTy → Type
  | .prim p => p.carrier
  | .vec p => List p.carrier
  | .opt p => Option p.carrier
  | .vecVec p => List (List p.carrier)
  | .optVec p => Option (List p.carrier)
  | .vecOpt p => List (Option p.carrier)
  | .arr32 => List Nat
  | .arr64 => List Nat
  | .optArr32 => Option (List Nat)
  | .optArr64 => Option (List Nat)

/-- Borsh serialization of a value of a flat type (the bytes `try_to_vec`
produces for the corresponding Rust value). -/
def FlatTy.ser : (t : FlatTy) → t.carrier → List Nat
  | .prim p, v => p.ser v
  | .vec p, l => serList p.ser l
  | .opt p, o => serOpt p.ser o
  | .vecVec p, l => serList (serList p.ser) l
  | .optVec p, o => serOpt (serList p.ser) o
  | .vecOpt p, l => serList (serOpt p.ser) l
  | .arr32, v => v
  | .arr64, v => v
  | .optArr32, o => serOpt id o
  | .optArr64, o => serOpt id o

/-- Borsh deserialization at a flat type (the behavior of
`deserialize_from_buf::<T>` for the corresponding Rust type). -/
def FlatTy.deser : (t : FlatTy) → List Nat → Except String (t.carrier × List Nat)
  | .prim p, l => p.deser l
  | .vec p, l => deserList p.deser l
  | .opt p, l => deserOpt p.deser l
  | .vecVec p, l => deserList (deserList p.deser) l
  | .optVec p, l => deserOpt (deserList p.deser) l
  | .vecOpt p, l => deserList (deserOpt p.deser) l
  | .arr32, l => readBytes 32 l
  | .arr64, l => readBytes 64 l
  | .optArr32, l => deserOpt (readBytes 32) l
  | .optArr64, l => deserOpt (readBytes 64) l

/-- Debug rendering of a value of a flat type (what the decode path prints). -/
def FlatTy.render : (t : FlatTy) → t.carrier → String
  | .prim p, v => p.render v
  | .vec p, l => renderDebugList p.render l
  | .opt p, o => renderDebugOption p.render o
  | .vecVec p, l => renderDebugList (renderDebugList p.render) l
  | .optVec p, o => renderDebugOption (renderDebugList p.render) o
  | .vecOpt p, l => renderDebugList (renderDebugOption p.render) l
  | .arr32, v => renderDebugList renderNat v
  | .arr64, v => renderDebugList renderNat v
  | .optArr32, o => renderDebugOption (renderDebugList renderNat) o
  | .optArr64, o => renderDebugOption (renderDebugList renderNat) o

/-- Validity of a value of a flat type: element ranges plus the length
bounds under which the `len as u32` length prefixes are lossless. -/
def FlatTy.valid : (t : FlatTy) → t.carrier → Prop
  | .prim p, v => p.valid v
  | .vec p, l => l.length < 2 ^ 32 ∧ ∀ x ∈ l, p.valid x
  | .opt p, o => ∀ x ∈ o, p.valid x
  | .vecVec p, l =>
      l.length < 2 ^ 32 ∧ ∀ x ∈ l, x.length < 2 ^ 32 ∧ ∀ y ∈ x, p.valid y
  | .optVec p, o => ∀ x ∈ o, x.length < 2 ^ 32 ∧ ∀ y ∈ x, p.valid y
  | .vecOpt p, l => l.length < 2 ^ 32 ∧ ∀ o ∈ l, ∀ x ∈ o, p.valid x
  | .arr32, v => v.length = 32 ∧ ∀ b ∈ v, b < 256
  | .arr64, v => v.length = 64 ∧ ∀ b ∈ v, b < 256
  | .optArr32, o => ∀ v ∈ o, v.length = 32 ∧ ∀ b ∈ v, b < 256
  | .optArr64, o => ∀ v ∈ o, v.length = 64 ∧ ∀ b ∈ v, b < 256

theorem flat_deser_ser (t : FlatTy) (v : t.carrier) (rest : List Nat)
    (h : t.valid v) : t.deser (t.ser v ++ rest) = .ok (v, rest) := by
  cases t with
  | prim p => exact prim_deser_ser p v rest h
  | vec p =>
    have h' : v.length < 2 ^ 32 ∧ ∀ x ∈ v, p.valid x := h
    exact deserList_serList p.deser p.ser v rest h'.1
      (fun a ha r => prim_deser_ser p a r (h'.2 a ha))
  | opt p =>
    have h' : ∀ x ∈ v, p.valid x := h
    exact deserOpt_serOpt p.deser p.ser v rest
      (fun a ha r => prim_deser_ser p a r (h' a ha))
  | vecVec p =>
    have h' : v.length < 2 ^ 32 ∧ ∀ x ∈ v, x.length < 2 ^ 32 ∧ ∀ y ∈ x, p.valid y := h
    exact deserList_serList _ _ v rest h'.1
      (fun a ha r => deserList_serList p.deser p.ser a r (h'.2 a ha).1
        (fun b hb r' => prim_deser_ser p b r' ((h'.2 a ha).2 b hb)))
  | optVec p =>
    have h' : ∀ x ∈ v, x.length < 2 ^ 32 ∧ ∀ y ∈ x, p.valid y := h
    exact deserOpt_serOpt _ _ v rest
      (fun a ha r => deserList_serList p.deser p.ser a r (h' a ha).1
        (fun b hb r' => prim_deser_ser p b r' ((h' a ha).2 b hb)))
  | vecOpt p =>
    have h' : v.length < 2 ^ 32 ∧ ∀ o ∈ v, ∀ x ∈ o, p.valid x := h
    exact deserList_serList _ _ v rest h'.1
      (fun a ha r => deserOpt_serOpt p.deser p.ser a r
        (fun b hb r' => prim_deser_ser p b r' (h'.2 a ha b hb)))
  | arr32 =>
    have h' : v.length = 32 ∧ ∀ b ∈ v, b < 256 := h
    exact readBytes_exact 32 v rest h'.1
  | arr64 =>
    have h' : v.length = 64 ∧ ∀ b ∈ v, b < 256 := h
    exact readBytes_exact 64 v rest h'.1
  | optArr32 =>
    have h' : ∀ x ∈ v, x.length = 32 ∧ ∀ b ∈ x, b < 256 := h
    refine deserOpt_serOpt (readBytes 32) id v rest ?_
    intro a ha r
    exact readBytes_exact 32 a r (h' a ha).1
  | optArr64 =>
    have h' : ∀ x ∈ v, x.length = 64 ∧ ∀ b ∈ x, b < 256 := h
    refine deserOpt_serOpt (readBytes 64) id v rest ?_
    intro a ha r
    exact readBytes_exact 64 a r (h' a ha).1

/-! ### The type-descriptor normalizer (`sanitize_argument_type`) -/

/-- The model of Rust `str::replace(' ', "")`: remove every space character
(only U+0020; other whitespace is untouched by the source). -/
def stripSpaces (s : String) : String :=
  ⟨s.data.filter (fun c => c ≠ ' ')⟩

/-- One pass of Rust `str::replace`: replace every non-overlapping occurrence
of `pat` (nonempty in all uses below) from left to right.  Each step consumes
at least one character, so fuel `l.length + 1` (supplied by `replaceAux`)
never runs out. -/
def replaceAuxF (pat rep : List Char) : Nat → List Char → List Char
  | _, [] => []
  | 0, l => l
  | fuel + 1, c :: rest =>
    if pat ≠ [] ∧ pat.isPrefixOf (c :: rest) then
      rep ++ replaceAuxF pat rep fuel ((c :: rest).drop pat.length)
    else
      c :: replaceAuxF pat rep fuel rest

def replaceAux (pat rep l : List Char) : List Char :=
  replaceAuxF pat rep (l.length + 1) l

/-- The model of Rust `str::replace` on `String`. -/
def rustReplace (s pat rep : String) : String :=
  ⟨replaceAux pat.data rep.data s.data⟩

/-- The language of the anchored regular expression
`(Option<)?LBRACKET[iu](8|16|32|64|128);(32|64)RBRACKET(>)?` used by
`sanitize_argument_type` (the prefix `Option<` and the suffix `>` are
independently optional, exactly as in the regex).  Being a finite regular
expression, it denotes exactly this 80-element language. -/
def regexLang : List String :=
  (["Option<", ""].flatMap fun p =>
    (["i", "u"].flatMap fun iu =>
      (["8", "16", "32", "64", "128"].flatMap fun w =>
        (["32", "64"].flatMap fun n =>
          ([">", ""].map fun suf =>
            p ++ "[" ++ iu ++ w ++ ";" ++ n ++ "]" ++ suf)))))

/-- The model of `Regex::is_match` for the regex above. -/
def reOptionIsMatch (s : String) : Bool := regexLang.contains s

/-- The model of Rust `str::starts_with(\'O\')`. -/
def startsWithO (s : String) : Bool :=
  match s.data with
  | 'O' :: _ => true
  | _ => false

/-- The model of `sanitize_argument_type` (parser.rs): strip spaces; if the
result matches the array-literal regex, rewrite it through the source's
`replace` chains (the `Option`-prefixed chain when it starts with `O`);
otherwise return it unchanged. -/
def sanitize_argument_type (data_type : String) : String :=
  let dt := stripSpaces data_type
  if reOptionIsMatch dt then
    if startsWithO dt then
      rustReplace (rustReplace (rustReplace (rustReplace dt "Option<" "Option") "[" "Array<") ";" ",") "]>" ">"
    else
      rustReplace (rustReplace (rustReplace dt "[" "Array<") ";" ",") "]" ">"
  else dt

/-! ### Names of the supported types

`FlatTy.name` is `stringify!(T).replace(' ', "")` for the macro branch of
`T` — the string each branch compares against the sanitized input.
`FlatTy.keyword` is the external spelling of §6 of the spec (array types are
written with brackets there and reach the internal spelling through
`sanitize_argument_type`). -/

def PrimTy.name : PrimTy → String
  | .i8 => "i8"
  | .i16 => "i16"
  | .i32 => "i32"
  | .i64 => "i64"
  | .i128 => "i128"
  | .u8 => "u8"
  | .u16 => "u16"
  | .u32 => "u32"
  | .u64 => "u64"
  | .u128 => "u128"
  | .bool => "bool"
  | .string => "String"

def FlatTy.name : FlatTy → String
  | .prim p => p.name
  | .vec p => "Vec<" ++ p.name ++ ">"
  | .opt p => "Option<" ++ p.name ++ ">"
  | .vecVec p => "Vec<Vec<" ++ p.name ++ ">>"
  | .optVec p => "Option<Vec<" ++ p.name ++ ">>"
  | .vecOpt p => "Vec<Option<" ++ p.name ++ ">>"
  | .arr32 => "Array<u8,32>"
  | .arr64 => "Array<u8,64>"
  | .optArr32 => "OptionArray<u8,32>"
  | .optArr64 => "OptionArray<u8,64>"

def FlatTy.keyword : FlatTy → String
  | .arr32 => "[u8;32]"
  | .arr64 => "[u8;64]"
  | .optArr32 => "Option<[u8;32]>"
  | .optArr64 => "Option<[u8;64]>"
  | t => t.name

def allPrimTys : List PrimTy :=
  [.i8, .i16, .i32, .i64, .i128, .u8, .u16, .u32, .u64, .u128, .bool, .string]

/-- The ordered encode dispatch list: the argument list of the
`serialize_call_args!` macro invocation in `serialize_primitive_argument_value`. -/
def encodeTys : List FlatTy :=
  allPrimTys.map .prim ++ allPrimTys.map .vec ++ allPrimTys.map .opt ++
  allPrimTys.map .vecVec ++ allPrimTys.map .optVec ++ allPrimTys.map .vecOpt ++
  [.arr32, .arr64, .optArr32, .optArr64]

/-- The ordered decode dispatch list: the argument lists of the
`deserialize_call_args!` and `deserialize_call_args_explicitly!` macro
invocations in `deserialize_primitive_argument_value`.  `Vec<Vec<T>>` and
`Option<Vec<T>>` are absent — the source's deserialize macros do not
mention them. -/
def decodeTys : List FlatTy :=
  allPrimTys.map .prim ++ allPrimTys.map .vec ++ allPrimTys.map .opt ++
  allPrimTys.map .vecOpt ++ [.arr32, .arr64, .optArr32, .optArr64]

/-! ### Typed extraction from a JSON value (serde's typed deserialization) -/

def PrimTy.fromJson : (t : PrimTy) → Json → Option t.carrier
  | .i8, j => match j with
    | .num n => if -(2 ^ 7 : Int) ≤ n ∧ n < 2 ^ 7 then some n else none
    | _ => none
  | .i16, j => match j with
    | .num n => if -(2 ^ 15 : Int) ≤ n ∧ n < 2 ^ 15 then some n else none
    | _ => none
  | .i32, j => match j with
    | .num n => if -(2 ^ 31 : Int) ≤ n ∧ n < 2 ^ 31 then some n else none
    | _ => none
  | .i64, j => match j with
    | .num n => if -(2 ^ 63 : Int) ≤ n ∧ n < 2 ^ 63 then some n else none
    | _ => none
  | .i128, j => match j with
    | .num n => if -(2 ^ 127 : Int) ≤ n ∧ n < 2 ^ 127 then some n else none
    | _ => none
  | .u8, j => match j with
    | .num n => if 0 ≤ n ∧ n < 2 ^ 8 then some n.toNat else none
    | _ => none
  | .u16, j => match j with
    | .num n => if 0 ≤ n ∧ n < 2 ^ 16 then some n.toNat else none
    | _ => none
  | .u32, j => match j with
    | .num n => if 0 ≤ n ∧ n < 2 ^ 32 then some n.toNat else none
    | _ => none
  | .u64, j => match j with
    | .num n => if 0 ≤ n ∧ n < 2 ^ 64 then some n.toNat else none
    | _ => none
  | .u128, j => match j with
    | .num n => if 0 ≤ n ∧ n < 2 ^ 128 then some n.toNat else none
    | _ => none
  | .bool, j => match j with
    | .bool b => some b
    | _ => none
  | .string, j => match j with
    | .str s => some s.data
    | _ => none

def fromJsonList (f : Json → Option α) : Json → Option (List α)
  | .arr l => l.mapM f
  | _ => none

/-- serde's `Option<T>`: `null` is `None`, anything else is parsed as `T`. -/
def fromJsonOpt (f : Json → Option α) : Json → Option (Option α)
  | .null => some none
  | j => (f j).map some

/-- serde-big-array `Array<u8, N>`: a JSON array of exactly `n` bytes. -/
def fromJsonByteArr (n : Nat) : Json → Option (List Nat)
  | .arr l =>
    if l.length = n then
      l.mapM (fun j =>
        match j with
        | .num m => if 0 ≤ m ∧ m < 256 then some m.toNat else none
        | _ => none)
    else none
  | _ => none

def FlatTy.fromJson : (t : FlatTy) → Json → Option t.carrier
  | .prim p, j => p.fromJson j
  | .vec p, j => fromJsonList p.fromJson j
  | .opt p, j => fromJsonOpt p.fromJson j
  | .vecVec p, j => fromJsonList (fromJsonList p.fromJson) j
  | .optVec p, j => fromJsonOpt (fromJsonList p.fromJson) j
  | .vecOpt p, j => fromJsonList (fromJsonOpt p.fromJson) j
  | .arr32, j => fromJsonByteArr 32 j
  | .arr64, j => fromJsonByteArr 64 j
  | .optArr32, j => fromJsonOpt (fromJsonByteArr 32) j
  | .optArr64, j => fromJsonOpt (fromJsonByteArr 64) j

/-! ### Errors (`DisplayMsg`, restricted to the variants the codec uses) -/

inductive DisplayMsg where
  | FailToParseCallArguments (e : String)
  | MissingFieldinJson (e : String)
  | FailToSerializeCallArgument (e : String)
deriving DecidableEq

instance {ε α : Type} [DecidableEq ε] [DecidableEq α] : DecidableEq (Except ε α) :=
  fun a b =>
    match a, b with
    | .ok x, .ok y =>
      if h : x = y then .isTrue (by rw [h]) else .isFalse (by intro hc; cases hc; exact h rfl)
    | .error x, .error y =>
      if h : x = y then .isTrue (by rw [h]) else .isFalse (by intro hc; cases hc; exact h rfl)
    | .ok _, .error _ => .isFalse (by intro hc; cases hc)
    | .error _, .ok _ => .isFalse (by intro hc; cases hc)

/-- The `Display` strings of the modelled `DisplayMsg` variants
(display_msg.rs). -/
def displayMsgToString : DisplayMsg → String
  | .FailToParseCallArguments e =>
      "Error: Cannot parse contract call arguments of the transaction. " ++ e
  | .MissingFieldinJson e =>
      "Provided json does not contain field with name : " ++ e
  | .FailToSerializeCallArgument e =>
      "Fail to serialize call argument. " ++ e

/-! ### The decode path -/

/-- The model of `deserialize_primitive_argument_value` (parser.rs): sanitize
the type string, look it up in the ordered decode dispatch cascade; on a miss
return `Ok(None)`; on a hit deserialize from the buffer, render the value
with the Debug formatter, and report the number of consumed bytes (the
explicit-state version of the `*pos += org_len - new_len` update in
`deserialize_from_buf`). -/
def deserialize_primitive_argument_value (buf : List Nat) (data_type : String) :
    Except DisplayMsg (Option (String × Nat)) :=
  match decodeTys.find? (fun t => t.name == sanitize_argument_type data_type) with
  | none => .ok none
  | some t =>
    match t.deser buf with
    | .error e => .error (.FailToSerializeCallArgument e)
    | .ok (v, r) => .ok (some (t.render v, buf.length - r.length))

/-- The model of `parse_call_result_from_data_type` (parser.rs). -/
def parse_call_result_from_data_type (vec : List Nat) (data_type : String) :
    Except DisplayMsg String :=
  match deserialize_primitive_argument_value vec data_type with
  | .ok (some (result, _)) => .ok result
  | .ok none => .error (.FailToSerializeCallArgument data_type)
  | .error e => .error (.FailToSerializeCallArgument (displayMsgToString e))

/-! ### The encode path -/

/-- The model of `serialize_primitive_argument_value` (parser.rs): sanitize
the type string, look it up in the ordered encode dispatch cascade; on a miss
return `Ok(None)`; on a hit parse the textual value as JSON at that type
(`serde_json::from_str::<T>`, modelled as text parse followed by typed
extraction) and borsh-serialize the result.  The serde error payload is
abstracted as a fixed string. -/
def serialize_primitive_argument_value (value : String) (data_type : String) :
    Except DisplayMsg (Option (List Nat)) :=
  match encodeTys.find? (fun t => t.name == sanitize_argument_type data_type) with
  | none => .ok none
  | some t =>
    match jsonTextParse value with
    | none => .error (.FailToSerializeCallArgument "serde parse error")
    | some j =>
      match t.fromJson j with
      | none => .error (.FailToSerializeCallArgument "serde parse error")
      | some v => .ok (some (t.ser v))

mutual

/-- Fuel-bounded body of `serialize_argument_value`; the fuel only bounds the
recursion depth (`serialize_argument_value` supplies `jsonSize value + 1`,
which provably suffices, see `serialize_argument_value_f_fuel`). -/
def serialize_argument_value_f : Nat → String → Json → Except DisplayMsg (List Nat)
  | 0, _, _ => .error (.FailToParseCallArguments "")
  | fuel + 1, data_type, value =>
    match value with
    | .str value_str =>
      (match serialize_primitive_argument_value value_str data_type with
       | .error e => .error e
       | .ok none =>
         .error (.FailToParseCallArguments ("Fail to parse value of data type " ++ data_type))
       | .ok (some args) => .ok args)
    | .arr value_arr =>
      (let dt := stripSpaces data_type
       if dt = "Custom" then
         match serialize_children_f fuel value_arr with
         | .error e => .error e
         | .ok args => .ok args.flatten
       else if dt = "Vec<Custom>" then
         match serialize_children_f fuel value_arr with
         | .error e => .error e
         | .ok args => .ok (natLE 4 value_arr.length ++ args.flatten)
       else
         .error (.FailToParseCallArguments
           "Json array value must be with argument types either Custom, or Vec<Custom>"))
    | _ => .error (.FailToParseCallArguments "Unknown Json Value")

/-- Fuel-bounded body of the child loop of `serialize_argument_value`. -/
def serialize_children_f : Nat → List Json → Except DisplayMsg (List (List Nat))
  | 0, _ => .error (.FailToParseCallArguments "")
  | fuel + 1, l =>
    match l with
    | [] => .ok []
    | v :: rest =>
      match (v.getField "argument_type").asStr with
      | none => .error (.MissingFieldinJson "argument_type")
      | some child_data_type =>
        match serialize_argument_value_f fuel child_data_type (v.getField "argument_value") with
        | .error e => .error e
        | .ok b =>
          match serialize_children_f fuel rest with
          | .error e => .error e
          | .ok bs => .ok (b :: bs)

end

/-- The model of `serialize_argument_value` (parser.rs): a string value goes
through the primitive serializer (an unmatched type becomes the
`FailToParseCallArguments` error naming the type); an array value is legal
only for declared type `Custom` (concatenate the recursively encoded
children) or `Vec<Custom>` (4-byte little-endian element count, then the
same concatenation); every other JSON shape is an error. -/
def serialize_argument_value (data_type : String) (value : Json) :
    Except DisplayMsg (List Nat) :=
  serialize_argument_value_f (jsonSize value + 1) data_type value

/-- The loop body of the array case of `serialize_argument_value`: each
child is a `(argument_type, argument_value)` object, encoded recursively;
the first failure aborts. -/
def serialize_children (l : List Json) : Except DisplayMsg (List (List Nat)) :=
  serialize_children_f (jsonSizeArr l + 1) l

mutual

/-- Any fuel above `jsonSize value` computes the same result as the wrapper:
the fuel-exhaustion branch of `serialize_argument_value_f` is dead code. -/
theorem serialize_argument_value_f_fuel (fuel : Nat) (data_type : String) (value : Json)
    (h : jsonSize value < fuel) :
    serialize_argument_value_f fuel data_type value = serialize_argument_value data_type value := by
  match fuel with
  | 0 => omega
  | fuel + 1 =>
    unfold serialize_argument_value
    generalize hg : jsonSize value + 1 = fuel2
    match fuel2 with
    | 0 => have := jsonSize_pos value; omega
    | fuel2 + 1 =>
      unfold serialize_argument_value_f
      cases value with
      | str s => rfl
      | null => rfl
      | bool b => rfl
      | num n => rfl
      | obj fs => rfl
      | arr l =>
        have hsz : jsonSize (Json.arr l) = 1 + jsonSizeArr l := rfl
        have hc1 : jsonSizeArr l < fuel := by omega
        have hc2 : jsonSizeArr l < fuel2 := by omega
        simp only [serialize_children_f_fuel fuel l hc1, serialize_children_f_fuel fuel2 l hc2]

/-- Any fuel above `jsonSizeArr l` computes the same result as the wrapper. -/
theorem serialize_children_f_fuel (fuel : Nat) (l : List Json)
    (h : jsonSizeArr l < fuel) :
    serialize_children_f fuel l = serialize_children l := by
  match fuel with
  | 0 => have := jsonSizeArr_pos l; omega
  | fuel + 1 =>
    unfold serialize_children
    generalize hg : jsonSizeArr l + 1 = fuel2
    match fuel2 with
    | 0 => have := jsonSizeArr_pos l; omega
    | fuel2 + 1 =>
      unfold serialize_children_f
      cases l with
      | nil => rfl
      | cons v rest =>
        have hsz : jsonSizeArr (v :: rest) = 1 + jsonSize v + jsonSizeArr rest := rfl
        have hrest : 1 ≤ jsonSizeArr rest := jsonSizeArr_pos rest
        have hgf : jsonSize (v.getField "argument_value") ≤ jsonSize v :=
          jsonSize_getField_le v "argument_value"
        have ha1 : jsonSize (v.getField "argument_value") < fuel := by omega
        have ha2 : jsonSize (v.getField "argument_value") < fuel2 := by omega
        have hb1 : jsonSizeArr rest < fuel := by omega
        have hb2 : jsonSizeArr rest < fuel2 := by omega
        simp only [serialize_argument_value_f_fuel fuel _ _ ha1,
          serialize_argument_value_f_fuel fuel2 _ _ ha2,
          serialize_children_f_fuel fuel rest hb1,
          serialize_children_f_fuel fuel2 rest hb2]

end

/-! ### The schema flattener and structured decoder
(`parse_call_result_from_schema`) -/

/-- A queue entry of the breadth-first schema traversal (the `NamedValue`
struct local to `parse_call_result_from_schema`). -/
structure NamedValue where
  name : String
  idx : Nat
  value : Json

/-- Total JSON size of a traversal queue (the fuel bound of the flattening
loop: every iteration strictly decreases this quantity). -/
def queueSize (q : List NamedValue) : Nat :=
  (q.map (fun nv => jsonSize nv.value)).sum

theorem queueSize_cons (nv : NamedValue) (q : List NamedValue) :
    queueSize (nv :: q) = jsonSize nv.value + queueSize q := by
  simp [queueSize]

theorem queueSize_append (a b : List NamedValue) :
    queueSize (a ++ b) = queueSize a + queueSize b := by
  simp [queueSize]

theorem queueSize_enum_map (name : String) (l : List Json) :
    queueSize (l.enum.map (fun (p : Nat × Json) => NamedValue.mk name p.1 p.2)) =
      (l.map jsonSize).sum := by
  unfold queueSize
  rw [List.map_map]
  have h1 : ((fun nv => jsonSize nv.value) ∘ fun (p : Nat × Json) => NamedValue.mk name p.1 p.2) =
      (fun (j : Json) => jsonSize j) ∘ Prod.snd := rfl
  rw [h1, ← List.map_map, List.enum_map_snd]

/-- The qualified name of a queue entry (the `val_name` computation of
`parse_call_result_from_schema`: the four-way match on the parent name and
the node's `argument_name`). -/
def qualifiedName (name : String) (argument_name : String) (idx : Nat) : String :=
  match name, argument_name with
  | "", "" => "[" ++ renderNat idx ++ "]"
  | "", val_name => val_name
  | nm, "" => nm ++ "[" ++ renderNat idx ++ "]"
  | nm, val_name => nm ++ "." ++ val_name

/-- Fuel-bounded body of the breadth-first flattening loop of
`parse_call_result_from_schema` (the `while let Some(..) = values.pop_front()`
loop): a string `argument_type` emits a `(qualified_name, leaf_type)` pair,
an array `argument_type` enqueues the children at the back of the queue with
the qualified name as their parent name, anything else is an error.  The
fuel only bounds the recursion depth (`flattenLoop` supplies
`queueSize q + 1`, which provably suffices, see `flattenLoopF_fuel`). -/
def flattenLoopF : Nat → List NamedValue → Except DisplayMsg (List (String × String))
  | _, [] => .ok []
  | 0, _ :: _ => .error (.FailToParseCallArguments "")
  | fuel + 1, nv :: rest =>
    let argument_name := ((nv.value.getField "argument_name").asStr).getD ""
    let val_name := qualifiedName nv.name argument_name nv.idx
    match nv.value.getField "argument_type" with
    | .str j_type =>
      (match flattenLoopF fuel rest with
       | .error e => .error e
       | .ok l => .ok ((val_name, j_type) :: l))
    | .arr j_val_array =>
      flattenLoopF fuel
        (rest ++ j_val_array.enum.map (fun (p : Nat × Json) => NamedValue.mk val_name p.1 p.2))
    | _ => .error (.FailToParseCallArguments "")

/-- The breadth-first flattening loop of `parse_call_result_from_schema`. -/
def flattenLoop (q : List NamedValue) : Except DisplayMsg (List (String × String)) :=
  flattenLoopF (queueSize q + 1) q

/-- Any fuel above `queueSize q` computes the same result as the wrapper:
the fuel-exhaustion branch of `flattenLoopF` is dead code. -/
theorem flattenLoopF_fuel (fuel : Nat) (q : List NamedValue)
    (h : queueSize q < fuel) : flattenLoopF fuel q = flattenLoop q := by
  induction fuel using Nat.strong_induction_on generalizing q with
  | _ fuel ih =>
    match fuel, q with
    | f, [] =>
      have e1 : ∀ g, flattenLoopF g [] = .ok [] := fun g => by cases g <;> rfl
      rw [e1]
      unfold flattenLoop
      rw [e1]
    | 0, _ :: _ => omega
    | fuel + 1, nv :: rest =>
      unfold flattenLoop
      generalize hg : queueSize (nv :: rest) + 1 = fuel2
      have hpos := jsonSize_pos nv.value
      have hq := queueSize_cons nv rest
      match fuel2 with
      | 0 => omega
      | fuel2 + 1 =>
        unfold flattenLoopF
        cases hft : nv.value.getField "argument_type" with
        | str j_type =>
          have h1 : queueSize rest < fuel := by omega
          have h2 : queueSize rest < fuel2 := by omega
          simp only [ih fuel (by omega) rest h1, ih fuel2 (by omega) rest h2]
        | arr j_val_array =>
          have hsz : jsonSize (Json.arr j_val_array) ≤ jsonSize nv.value := by
            have := jsonSize_getField_le nv.value "argument_type"
            rw [hft] at this
            exact this
          have hsum := sum_map_jsonSize_lt_arr j_val_array
          have harr : jsonSize (Json.arr j_val_array) = 1 + jsonSizeArr j_val_array := rfl
          have hqs : queueSize (rest ++ j_val_array.enum.map
              (fun (p : Nat × Json) => NamedValue.mk
                (qualifiedName nv.name (((nv.value.getField "argument_name").asStr).getD "") nv.idx)
                p.1 p.2)) < queueSize (nv :: rest) := by
            rw [queueSize_append, queueSize_enum_map, hq]
            omega
          have h1 : _ < fuel := lt_of_lt_of_le hqs (by omega)
          have h2 : _ < fuel2 := lt_of_lt_of_le hqs (by omega)
          simp only [ih fuel (by omega) _ h1, ih fuel2 (by omega) _ h2]
        | null => rfl
        | bool b => rfl
        | num n => rfl
        | obj fs => rfl

/-- The decoding loop of `parse_call_result_from_schema`: walk the flattened
leaves in order; each leaf is decoded from the buffer suffix starting at the
cursor, a matched leaf appends its rendered value and advances the cursor by
the consumed bytes, an unmatched leaf (`Ok(None)`) appends nothing and
leaves the cursor unchanged, a decode failure aborts.  The final cursor is
returned alongside the pairs (explicit-state version of `pos`). -/
def decodeLoop (buf : List Nat) :
    List (String × String) → Nat → Except DisplayMsg (List (String × String) × Nat)
  | [], pos => .ok ([], pos)
  | (name, data_type) :: rest, pos =>
    match deserialize_primitive_argument_value (buf.drop pos) data_type with
    | .error e => .error e
    | .ok none => decodeLoop buf rest pos
    | .ok (some (deserialized, n)) =>
      match decodeLoop buf rest (pos + n) with
      | .error e => .error e
      | .ok (l, p) => .ok ((name, deserialized) :: l, p)

/-- The model of `parse_call_result_from_schema` (parser.rs): seed the
traversal queue (an array schema enqueues its elements with positional
indices, any other schema is a single root node), flatten breadth-first,
then decode the leaves in order. -/
def parse_call_result_from_schema (serialized_data : List Nat) (schema : Json) :
    Except DisplayMsg (List (String × String)) :=
  let initial : List NamedValue :=
    match schema with
    | .arr j_values => j_values.enum.map (fun (p : Nat × Json) => NamedValue.mk "" p.1 p.2)
    | _ => [NamedValue.mk "" 0 schema]
  match flattenLoop initial with
  | .error e => .error e
  | .ok data_types =>
    match decodeLoop serialized_data data_types 0 with
    | .error e => .error e
    | .ok (result, _) => .ok result

/-! ### Dispatch facts

The decode dispatch cascade resolves every decode-supported keyword to its
own branch, and the encode cascade contains all decode-supported branches. -/

theorem decode_dispatch_facts :
    (decodeTys.all fun t =>
      (sanitize_argument_type t.keyword == t.name) &&
      (decodeTys.find? (fun u => u.name == t.name) == some t) &&
      (encodeTys.find? (fun u => u.name == t.name) == some t)) = true := by decide

theorem decode_find_keyword (t : FlatTy) (ht : t ∈ decodeTys) :
    decodeTys.find? (fun u => u.name == sanitize_argument_type t.keyword) = some t ∧
    encodeTys.find? (fun u => u.name == sanitize_argument_type t.keyword) = some t := by
  have hall := List.all_eq_true.mp decode_dispatch_facts t ht
  simp only [Bool.and_eq_true, beq_iff_eq] at hall
  rw [hall.1.1]
  exact ⟨hall.1.2, hall.2⟩

/-- C1 (amended): for every flat type keyword of §6 that the decode dispatch
cascade supports — every keyword except the encode-only `Custom` /
`Vec<Custom>` and the two type families `Vec<Vec<T>>` / `Option<Vec<T>>`
missing from the deserialize macros — and every valid value `v` of that
type, decoding the borsh bytes of `v` through the direct decoder renders
exactly the Debug text of `v`; and those bytes are exactly what the encode
path produces from any JSON text denoting `v`. -/
theorem C1_roundtrip_flat_types (t : FlatTy) (ht : t ∈ decodeTys) (v : t.carrier)
    (hv : t.valid v) :
    parse_call_result_from_data_type (t.ser v) t.keyword = .ok (t.render v) ∧
    (∀ s j, jsonTextParse s = some j → t.fromJson j = some v →
      serialize_primitive_argument_value s t.keyword = .ok (some (t.ser v))) := by
  have hfind := decode_find_keyword t ht
  constructor
  · unfold parse_call_result_from_data_type deserialize_primitive_argument_value
    rw [hfind.1]
    have hd : t.deser (t.ser v) = .ok (v, []) := by
      have h0 := flat_deser_ser t v [] hv
      rwa [List.append_nil] at h0
    simp only [hd]
  · intro s j hs hj
    unfold serialize_primitive_argument_value
    simp only [hfind.2, hs, hj]

/-- C1 witness: the round-trip theorem applied at type keyword `u8` and
value 5. -/
theorem C1_roundtrip_flat_types_witness :
    FlatTy.prim PrimTy.u8 ∈ decodeTys ∧
    FlatTy.valid (.prim .u8) (5 : Nat) ∧
    parse_call_result_from_data_type (FlatTy.ser (.prim .u8) (5 : Nat))
      (FlatTy.prim PrimTy.u8).keyword = .ok (FlatTy.render (.prim .u8) (5 : Nat)) :=
  have hm : FlatTy.prim PrimTy.u8 ∈ decodeTys := by decide
  have hv : FlatTy.valid (.prim .u8) (5 : Nat) := by show (5 : Nat) < 2 ^ 8; norm_num
  ⟨hm, hv, (C1_roundtrip_flat_types (.prim .u8) hm (5 : Nat) hv).1⟩

/-- C1 counterexample: `Vec<Vec<u8>>` is one of the supported type-name
keywords of §6 and is not encode-only in the spec, the encode path accepts
it, yet the direct decoder rejects it (the deserialize macros have no
`Vec<Vec<T>>` branch), so `decode_flat(encode(T, v), T)` is an error rather
than the rendered value. -/
theorem C1_counterexample :
    serialize_primitive_argument_value "[[0]]" "Vec<Vec<u8>>" =
      .ok (some [1, 0, 0, 0, 1, 0, 0, 0, 0]) ∧
    parse_call_result_from_data_type [1, 0, 0, 0, 1, 0, 0, 0, 0] "Vec<Vec<u8>>" =
      .error (.FailToSerializeCallArgument "Vec<Vec<u8>>") := by
  constructor <;> decide

/-- C2 counterexample: a structured schema containing the unsupported leaf
type `Vec<Vec<u8>>` does not abort; the offending leaf is silently skipped
(consuming no bytes) and the remaining leaves decode, yielding a partial
name/value list with no error. -/
theorem C2_counterexample :
    parse_call_result_from_schema [5]
      (Json.arr [Json.obj [("argument_type", Json.str "Vec<Vec<u8>>")],
                 Json.obj [("argument_type", Json.str "u8")]]) = .ok [("[1]", "5")] := by
  decide

/-- C2 (amended): in structured schema decoding, a leaf whose type string is
unmatched by the decode dispatch cascade is silently skipped — it
contributes no pair and consumes no bytes — and decoding continues with the
next leaf; only a deserialization failure of a matched leaf type aborts the
whole operation with an error. -/
theorem C2_unmatched_leaf_skipped (buf : List Nat) (pos : Nat) (name dt : String)
    (rest : List (String × String)) :
    (decodeTys.find? (fun u => u.name == sanitize_argument_type dt) = none →
      decodeLoop buf ((name, dt) :: rest) pos = decodeLoop buf rest pos) ∧
    (∀ e, deserialize_primitive_argument_value (buf.drop pos) dt = .error e →
      decodeLoop buf ((name, dt) :: rest) pos = .error e) := by
  constructor
  · intro hfind
    conv_lhs => unfold decodeLoop deserialize_primitive_argument_value
    simp only [hfind]
  · intro e herr
    conv_lhs => unfold decodeLoop
    simp only [herr]

/-- C2 witness: the skip behavior applied at the unmatched leaf type
`Vec<Vec<u8>>` over the buffer `[5]`. -/
theorem C2_unmatched_leaf_skipped_witness :
    decodeTys.find? (fun u => u.name == sanitize_argument_type "Vec<Vec<u8>>") = none ∧
    decodeLoop [5] [("[0]", "Vec<Vec<u8>>"), ("[1]", "u8")] 0 =
      decodeLoop [5] [("[1]", "u8")] 0 :=
  ⟨by decide,
   (C2_unmatched_leaf_skipped [5] 0 "[0]" "Vec<Vec<u8>>" [("[1]", "u8")]).1 (by decide)⟩

/-- C3 counterexample: on the flat decode path the two failure causes are
NOT distinct error kinds — an unmatched type string (`Vec<Vec<u8>>`) and a
malformed buffer for the supported type `bool` both come back as the same
`FailToSerializeCallArgument` constructor, differing only in the carried
message text. -/
theorem C3_counterexample :
    parse_call_result_from_data_type [] "Vec<Vec<u8>>" =
      .error (.FailToSerializeCallArgument "Vec<Vec<u8>>") ∧
    parse_call_result_from_data_type [] "bool" =
      .error (.FailToSerializeCallArgument
        "Fail to serialize call argument. Unexpected length of input") := by
  constructor <;> decide

/-- C3 (amended): on the encode path the two failure causes are distinct
error kinds — an unmatched type string yields `FailToParseCallArguments`
naming the type, a malformed value of a supported type yields
`FailToSerializeCallArgument` — and those constructors are never equal.  On
the flat decode path, however, both causes are collapsed into the single
`FailToSerializeCallArgument` kind (the unmatched case carrying the type
string, the malformed case carrying the displayed inner error), so they are
distinguishable there only by message text, not by kind. -/
theorem C3_error_kinds :
    (∀ dt s, encodeTys.find? (fun u => u.name == sanitize_argument_type dt) = none →
      serialize_argument_value dt (.str s) =
        .error (.FailToParseCallArguments ("Fail to parse value of data type " ++ dt))) ∧
    (∀ dt (t : FlatTy) s,
      encodeTys.find? (fun u => u.name == sanitize_argument_type dt) = some t →
      ((jsonTextParse s).bind t.fromJson) = none →
      serialize_argument_value dt (.str s) =
        .error (.FailToSerializeCallArgument "serde parse error")) ∧
    (∀ a b, DisplayMsg.FailToParseCallArguments a ≠ DisplayMsg.FailToSerializeCallArgument b) ∧
    (∀ dt buf, decodeTys.find? (fun u => u.name == sanitize_argument_type dt) = none →
      parse_call_result_from_data_type buf dt =
        .error (.FailToSerializeCallArgument dt)) ∧
    (∀ dt buf (t : FlatTy) e,
      decodeTys.find? (fun u => u.name == sanitize_argument_type dt) = some t →
      t.deser buf = .error e →
      parse_call_result_from_data_type buf dt =
        .error (.FailToSerializeCallArgument ("Fail to serialize call argument. " ++ e))) := by
  refine ⟨?_, ?_, ?_, ?_, ?_⟩
  · intro dt s hfind
    unfold serialize_argument_value serialize_argument_value_f
      serialize_primitive_argument_value
    simp only [hfind]
  · intro dt t s hfind hparse
    unfold serialize_argument_value serialize_argument_value_f
      serialize_primitive_argument_value
    simp only [hfind]
    have hcases : jsonTextParse s = none ∨
        ∃ j, jsonTextParse s = some j ∧ t.fromJson j = none := by
      cases hjs : jsonTextParse s with
      | none => left; rfl
      | some j =>
        right
        refine ⟨j, rfl, ?_⟩
        rw [hjs] at hparse
        simpa using hparse
    rcases hcases with hjs | ⟨j, hjs, hfj⟩
    · simp only [hjs]
    · simp only [hjs, hfj]
  · intro a b hc
    cases hc
  · intro dt buf hfind
    unfold parse_call_result_from_data_type deserialize_primitive_argument_value
    simp only [hfind]
  · intro dt buf t e hfind herr
    unfold parse_call_result_from_data_type deserialize_primitive_argument_value
    simp only [hfind, herr]
    rfl

/-- C3 witness: the amended statement applied at concrete inputs — the
encode path at unmatched `Vec<Vec<Vec<bool>>>` and at supported `u8` with
the malformed text `true`, and the decode path at unmatched `Vec<Vec<u8>>`
and at supported `bool` with an empty buffer. -/
theorem C3_error_kinds_witness :
    (encodeTys.find? (fun u => u.name == sanitize_argument_type "Vec<Vec<Vec<bool>>>") = none ∧
      serialize_argument_value "Vec<Vec<Vec<bool>>>" (.str "[[[true]]]") =
        .error (.FailToParseCallArguments
          "Fail to parse value of data type Vec<Vec<Vec<bool>>>")) ∧
    (encodeTys.find? (fun u => u.name == sanitize_argument_type "u8") = some (.prim .u8) ∧
      serialize_argument_value "u8" (.str "true") =
        .error (.FailToSerializeCallArgument "serde parse error")) ∧
    (decodeTys.find? (fun u => u.name == sanitize_argument_type "bool") = some (.prim .bool) ∧
      parse_call_result_from_data_type [] "bool" =
        .error (.FailToSerializeCallArgument
          "Fail to serialize call argument. Unexpected length of input")) :=
  ⟨⟨by decide, C3_error_kinds.1 "Vec<Vec<Vec<bool>>>" "[[[true]]]" (by decide)⟩,
   ⟨by decide, C3_error_kinds.2.1 "u8" (.prim .u8) "true" (by decide) (by decide)⟩,
   ⟨by decide, C3_error_kinds.2.2.2.2 "bool" [] (.prim .bool) "Unexpected length of input"
      (by decide) (by decide)⟩⟩

/-- ASCII lowercasing of a string, used to state case-insensitive
comparison. -/
def asciiLower (s : String) : String :=
  ⟨s.data.map (fun c => if 'A' ≤ c ∧ c ≤ 'Z' then Char.ofNat (c.toNat + 32) else c)⟩

/-- C4: an array-valued argument encodes successfully only when the declared
type, compared ignoring case and internal spaces, equals `Custom` or
`Vec<Custom>` (the source's comparison is in fact space-insensitive but
case-SENSITIVE, which still satisfies the "only if"); and any declared type
that does not match case/space-insensitively is rejected with the
array-must-be-Custom error. -/
theorem C4_array_requires_custom :
    (∀ dt (l : List Json) bs, serialize_argument_value dt (.arr l) = .ok bs →
      asciiLower (stripSpaces dt) = "custom" ∨ asciiLower (stripSpaces dt) = "vec<custom>") ∧
    (∀ dt (l : List Json),
      asciiLower (stripSpaces dt) ≠ "custom" → asciiLower (stripSpaces dt) ≠ "vec<custom>" →
      serialize_argument_value dt (.arr l) =
        .error (.FailToParseCallArguments
          "Json array value must be with argument types either Custom, or Vec<Custom>")) := by
  constructor
  · intro dt l bs hok
    unfold serialize_argument_value serialize_argument_value_f at hok
    by_cases h1 : stripSpaces dt = "Custom"
    · left
      rw [h1]
      decide
    · by_cases h2 : stripSpaces dt = "Vec<Custom>"
      · right
        rw [h2]
        decide
      · simp only [h1, h2, if_false, ite_false] at hok
        cases hok
  · intro dt l h1 h2
    unfold serialize_argument_value serialize_argument_value_f
    have hc1 : stripSpaces dt ≠ "Custom" := by
      intro hc
      exact h1 (by rw [hc]; decide)
    have hc2 : stripSpaces dt ≠ "Vec<Custom>" := by
      intro hc
      exact h2 (by rw [hc]; decide)
    simp only [hc1, hc2, if_false, ite_false]

/-- C4 witness: the success direction applied at declared type `Custom` with
an empty record, and the rejection direction applied at declared type `u8`. -/
theorem C4_array_requires_custom_witness :
    (serialize_argument_value "Custom" (.arr []) = .ok [] ∧
      (asciiLower (stripSpaces "Custom") = "custom" ∨
        asciiLower (stripSpaces "Custom") = "vec<custom>")) ∧
    (asciiLower (stripSpaces "u8") ≠ "custom" ∧ asciiLower (stripSpaces "u8") ≠ "vec<custom>" ∧
      serialize_argument_value "u8" (.arr []) =
        .error (.FailToParseCallArguments
          "Json array value must be with argument types either Custom, or Vec<Custom>")) :=
  ⟨⟨by decide, C4_array_requires_custom.1 "Custom" [] [] (by decide)⟩,
   ⟨by decide, by decide,
    C4_array_requires_custom.2 "u8" [] (by decide) (by decide)⟩⟩

/-- A `(argument_type, argument_value)` child object, as the elements of a
`Custom` / `Vec<Custom>` array are shaped. -/
def mkArg (p : String × Json) : Json :=
  .obj [("argument_type", .str p.1), ("argument_value", p.2)]

theorem getField_mkArg_type (p : String × Json) :
    (mkArg p).getField "argument_type" = .str p.1 := rfl

theorem getField_mkArg_value (p : String × Json) :
    (mkArg p).getField "argument_value" = p.2 := rfl

theorem jsonSize_mkArg (p : String × Json) : jsonSize (mkArg p) = 5 + jsonSize p.2 := by
  simp [mkArg, jsonSize, jsonSizeObj]
  omega

/-- The child loop encodes exactly the children, in declaration order, each
through the full recursive encoder. -/
theorem serialize_children_mkArg (pairs : List (String × Json)) :
    serialize_children (pairs.map mkArg) =
      pairs.mapM (fun p => serialize_argument_value p.1 p.2) := by
  induction pairs with
  | nil => rfl
  | cons p rest ih =>
    have hp := jsonSize_mkArg p
    have hpos := jsonSizeArr_pos (rest.map mkArg)
    have hszcons : jsonSizeArr (mkArg p :: rest.map mkArg) =
        1 + jsonSize (mkArg p) + jsonSizeArr (rest.map mkArg) := rfl
    unfold serialize_children
    simp only [List.map_cons]
    unfold serialize_children_f
    simp only [getField_mkArg_type, getField_mkArg_value, Json.asStr]
    rw [serialize_argument_value_f_fuel _ _ _ (by omega)]
    rw [serialize_children_f_fuel _ _ (by omega)]
    rw [ih]
    rw [List.mapM_cons]
    cases serialize_argument_value p.1 p.2 with
    | error e => rfl
    | ok b =>
      cases rest.mapM (fun p => serialize_argument_value p.1 p.2) with
      | error e => rfl
      | ok bs => rfl

/-- C5: a `Custom` argument encodes to exactly the concatenation, in
declaration order, of the recursively encoded children with no prefix,
separator, or framing; a `Vec<Custom>` argument prepends exactly a 4-byte
little-endian element count; and the one-record example
`Vec<Custom>[Custom[bool(true), String("my name")]]` encodes to exactly the
expected 16 bytes. -/
theorem C5_custom_encoding :
    (∀ (pairs : List (String × Json)),
      serialize_argument_value "Custom" (.arr (pairs.map mkArg)) =
        (pairs.mapM (fun p => serialize_argument_value p.1 p.2)).map List.flatten) ∧
    (∀ (pairs : List (String × Json)),
      serialize_argument_value "Vec<Custom>" (.arr (pairs.map mkArg)) =
        (pairs.mapM (fun p => serialize_argument_value p.1 p.2)).map
          (fun bs => natLE 4 pairs.length ++ bs.flatten)) ∧
    (serialize_argument_value "Vec<Custom>"
        (.arr [mkArg ("Custom", .arr [mkArg ("bool", .str "true"),
                                      mkArg ("String", .str "\"my name\"")])]) =
      .ok [1, 0, 0, 0, 1, 7, 0, 0, 0, 109, 121, 32, 110, 97, 109, 101] ∧
     ∀ bs, serialize_argument_value "Vec<Custom>"
        (.arr [mkArg ("Custom", .arr [mkArg ("bool", .str "true"),
                                      mkArg ("String", .str "\"my name\"")])]) = .ok bs →
       bs.length = 16) := by
  have hstep : ∀ (l : List Json) (dt : String), stripSpaces dt = "Custom" →
      serialize_argument_value dt (.arr l) = (serialize_children l).map List.flatten := by
    intro l dt hdt
    unfold serialize_argument_value serialize_argument_value_f
    simp only [hdt, if_pos rfl]
    rw [serialize_children_f_fuel _ _ (by
      have : jsonSize (Json.arr l) = 1 + jsonSizeArr l := rfl
      omega)]
    cases serialize_children l with
    | error e => rfl
    | ok args => rfl
  have hstep2 : ∀ (l : List Json) (dt : String), stripSpaces dt = "Vec<Custom>" →
      serialize_argument_value dt (.arr l) =
        (serialize_children l).map (fun bs => natLE 4 l.length ++ bs.flatten) := by
    intro l dt hdt
    unfold serialize_argument_value serialize_argument_value_f
    have hne : ("Vec<Custom>" : String) ≠ "Custom" := by decide
    simp only [hdt, if_pos rfl, if_neg hne]
    rw [serialize_children_f_fuel _ _ (by
      have : jsonSize (Json.arr l) = 1 + jsonSizeArr l := rfl
      omega)]
    cases serialize_children l with
    | error e => rfl
    | ok args => rfl
  refine ⟨?_, ?_, ?_, ?_⟩
  · intro pairs
    rw [hstep _ _ (by decide), serialize_children_mkArg]
  · intro pairs
    rw [hstep2 _ _ (by decide), serialize_children_mkArg]
    rw [List.length_map]
  · decide
  · intro bs hbs
    have : bs = [1, 0, 0, 0, 1, 7, 0, 0, 0, 109, 121, 32, 110, 97, 109, 101] := by
      have h0 : serialize_argument_value "Vec<Custom>"
          (.arr [mkArg ("Custom", .arr [mkArg ("bool", .str "true"),
                                        mkArg ("String", .str "\"my name\"")])]) =
          .ok [1, 0, 0, 0, 1, 7, 0, 0, 0, 109, 121, 32, 110, 97, 109, 101] := by decide
      rw [h0] at hbs
      injection hbs with h
      exact h.symm
    rw [this]
    rfl

/-- C5 witness: the 16-byte length consequence applied at the concrete
encoded bytes of the one-record example. -/
theorem C5_custom_encoding_witness :
    ([1, 0, 0, 0, 1, 7, 0, 0, 0, 109, 121, 32, 110, 97, 109, 101] : List Nat).length = 16 :=
  C5_custom_encoding.2.2.2 [1, 0, 0, 0, 1, 7, 0, 0, 0, 109, 121, 32, 110, 97, 109, 101]
    (by decide)

/-- C6: the codec realizes the bit-exact wire layout of §4.2 — integers
little-endian at their declared width, bool one byte 0 or 1, String a
4-byte little-endian byte-length then the UTF-8 bytes, `Vec<T>` a 4-byte
little-endian count then the elements, `Option<T>` a 1-byte tag, `[u8;N]`
exactly the N raw bytes — and the cited concrete examples hold through the
full encode/decode pipeline. -/
theorem C6_wire_layout :
    (∀ n : Nat, FlatTy.ser (.prim .u32) n = natLE 4 n) ∧
    (∀ v : Int, FlatTy.ser (.prim .i64) v = intSer 8 v) ∧
    (∀ b : Bool, FlatTy.ser (.prim .bool) b = [if b then 1 else 0]) ∧
    (∀ s : List Char, FlatTy.ser (.prim .string) s =
      natLE 4 (utf8Encode s).length ++ utf8Encode s) ∧
    (∀ p (l : List (PrimTy.carrier p)), FlatTy.ser (.vec p) l =
      natLE 4 l.length ++ (l.map (PrimTy.ser p)).flatten) ∧
    (∀ p, FlatTy.ser (.opt p) none = [0]) ∧
    (∀ p (x : PrimTy.carrier p), FlatTy.ser (.opt p) (some x) = 1 :: PrimTy.ser p x) ∧
    (∀ v : List Nat, FlatTy.ser .arr32 v = v) ∧
    serialize_primitive_argument_value "[0]" "Vec<u8>" = .ok (some [1, 0, 0, 0, 0]) ∧
    serialize_primitive_argument_value "false" "bool" = .ok (some [0]) ∧
    serialize_primitive_argument_value "true" "bool" = .ok (some [1]) ∧
    serialize_primitive_argument_value "null" "Option<u8>" = .ok (some [0]) ∧
    parse_call_result_from_data_type [0, 1, 2, 3] "u32" = .ok "50462976" := by
  refine ⟨fun n => rfl, fun v => rfl, fun b => rfl, fun s => rfl,
    fun p l => rfl, fun p => rfl, fun p x => rfl, fun v => rfl,
    ?_, ?_, ?_, ?_, ?_⟩ <;> decide

theorem stripSpaces_idem (s : String) : stripSpaces (stripSpaces s) = stripSpaces s := by
  unfold stripSpaces
  simp [List.filter_filter]

theorem sanitize_strip (s : String) :
    sanitize_argument_type (stripSpaces s) = sanitize_argument_type s := by
  unfold sanitize_argument_type
  rw [stripSpaces_idem]

theorem sanitize_lang_facts :
    (regexLang.all fun d =>
      (sanitize_argument_type (sanitize_argument_type d) == sanitize_argument_type d) &&
      (stripSpaces d == d)) = true := by decide

theorem sanitize_unmatched (s : String) (hm : reOptionIsMatch (stripSpaces s) = false) :
    sanitize_argument_type s = stripSpaces s := by
  unfold sanitize_argument_type
  simp [hm]

theorem sanitize_idem (s : String) :
    sanitize_argument_type (sanitize_argument_type s) = sanitize_argument_type s := by
  by_cases hm : reOptionIsMatch (stripSpaces s) = true
  · have hmem : stripSpaces s ∈ regexLang := by
      unfold reOptionIsMatch at hm
      simpa using hm
    have hf := List.all_eq_true.mp sanitize_lang_facts _ hmem
    simp only [Bool.and_eq_true, beq_iff_eq] at hf
    have h1 : sanitize_argument_type s = sanitize_argument_type (stripSpaces s) :=
      (sanitize_strip s).symm
    rw [h1]
    exact hf.1
  · rw [Bool.not_eq_true] at hm
    have h1 := sanitize_unmatched s hm
    rw [h1]
    have hm2 : reOptionIsMatch (stripSpaces (stripSpaces s)) = false := by
      rw [stripSpaces_idem]
      exact hm
    rw [sanitize_unmatched (stripSpaces s) hm2, stripSpaces_idem]

/-- C7 counterexample: the normalizer does not strip all whitespace — a tab
inside an array-literal shape survives stripping, defeats the regex, and the
string passes through unrewritten instead of reaching the canonical
array-descriptor spelling; and the regex's independently optional
prefix/suffix lets the non-shape `[u8;32]>` be rewritten rather than
returned unchanged. -/
theorem C7_counterexample :
    sanitize_argument_type "[u8;\t32]" = "[u8;\t32]" ∧
    sanitize_argument_type "[u8;32]" = "Array<u8,32>" ∧
    sanitize_argument_type "[u8;32]>" = "Array<u8,32>>" := by
  refine ⟨?_, ?_, ?_⟩ <;> decide

/-- C7 (amended): the normalizer strips all space characters (U+0020 only;
other whitespace is kept), rewrites exactly the strings whose space-stripped
form matches the anchored regex — array-literal shapes with an independently
optional `Option<` prefix and `>` suffix — through the replacement chains,
and returns every other string unchanged apart from the space stripping;
normalization of `"[ u8 ; 64 ]"` and `"[u8;64]"` agree, and normalization is
idempotent. -/
theorem C7_sanitize :
    (∀ s, sanitize_argument_type (sanitize_argument_type s) = sanitize_argument_type s) ∧
    sanitize_argument_type "[ u8 ; 64 ]" = sanitize_argument_type "[u8;64]" ∧
    (∀ s, reOptionIsMatch (stripSpaces s) = false →
      sanitize_argument_type s = stripSpaces s) ∧
    sanitize_argument_type "[u8;64]" = "Array<u8,64>" ∧
    sanitize_argument_type "Option<[u8;64]>" = "OptionArray<u8,64>" ∧
    sanitize_argument_type "Option<[i128;32]>" = "OptionArray<i128,32>" :=
  ⟨sanitize_idem, by decide, sanitize_unmatched, by decide, by decide, by decide⟩

/-- C7 witness: the pass-through direction applied at the non-matching
type string `u8`. -/
theorem C7_sanitize_witness :
    reOptionIsMatch (stripSpaces "u8") = false ∧
    sanitize_argument_type "u8" = stripSpaces "u8" :=
  ⟨by decide, C7_sanitize.2.2.1 "u8" (by decide)⟩

/-- A leaf schema node: an `argument_name` (possibly empty, which behaves
exactly like an absent name since the source defaults a missing or
non-string name to `""`) and a string `argument_type`. -/
def mkLeaf (aname t : String) : Json :=
  .obj [("argument_name", .str aname), ("argument_type", .str t)]

theorem getField_mkLeaf_type (a t : String) :
    (mkLeaf a t).getField "argument_type" = .str t := rfl

theorem getField_mkLeaf_name (a t : String) :
    (mkLeaf a t).getField "argument_name" = .str a := rfl

theorem length_le_queueSize (q : List NamedValue) : q.length ≤ queueSize q := by
  induction q with
  | nil => simp [queueSize]
  | cons nv rest ih =>
    rw [queueSize_cons]
    have := jsonSize_pos nv.value
    simp only [List.length_cons]
    omega

theorem flattenLoopF_leafqueue (q : List NamedValue) (fuel : Nat)
    (hq : ∀ nv ∈ q, ∃ a t, nv.value = mkLeaf a t)
    (hf : q.length < fuel) :
    flattenLoopF fuel q = .ok (q.map (fun nv =>
      (qualifiedName nv.name (((nv.value.getField "argument_name").asStr).getD "") nv.idx,
       match nv.value.getField "argument_type" with
       | .str t => t
       | _ => ""))) := by
  induction q generalizing fuel with
  | nil => cases fuel <;> rfl
  | cons nv rest ih =>
    obtain ⟨a, t, hv⟩ := hq nv (by simp)
    match fuel with
    | 0 => simp at hf
    | fuel + 1 =>
      have hrest : ∀ nv ∈ rest, ∃ a t, nv.value = mkLeaf a t := by
        intro x hx
        exact hq x (by simp [hx])
      have hfr : rest.length < fuel := by
        simp at hf
        omega
      unfold flattenLoopF
      rw [hv, getField_mkLeaf_type]
      rw [ih fuel hrest hfr]
      simp only [List.map_cons, hv, getField_mkLeaf_type]

theorem flattenLoop_leafqueue (q : List NamedValue)
    (hq : ∀ nv ∈ q, ∃ a t, nv.value = mkLeaf a t) :
    flattenLoop q = .ok (q.map (fun nv =>
      (qualifiedName nv.name (((nv.value.getField "argument_name").asStr).getD "") nv.idx,
       match nv.value.getField "argument_type" with
       | .str t => t
       | _ => ""))) := by
  unfold flattenLoop
  exact flattenLoopF_leafqueue q _ hq (by have := length_le_queueSize q; omega)

/-! ### A reference breadth-first specification for nested schemas

`SchemaNode` generates every well-formed nested schema tree: a leaf node
(string `argument_type`) or a group node (array `argument_type`), each
carrying an `argument_name` — the empty string standing for an absent
name, which the source treats identically (`unwrap_or("")`).  `specBfs`
below is a second, specification-side definition written from the words of
the flattening rule (breadth-first traversal preserving declaration order;
qualified names `parent.child_name`, `parent[index]`, `[index]`);
`flattenLoop_eq_specBfs` compares the source-translated flattener against
it on every nested schema. -/

inductive SchemaNode where
  | leaf (aname : String) (ty : String) : SchemaNode
  | group (aname : String) (children : List SchemaNode) : SchemaNode

mutual

/-- The JSON schema value denoted by a node of a schema tree. -/
def SchemaNode.toJson : SchemaNode → Json
  | .leaf a t => Json.obj [("argument_name", .str a), ("argument_type", .str t)]
  | .group a cs =>
    Json.obj [("argument_name", .str a), ("argument_type", .arr (schemaListToJson cs))]

def schemaListToJson : List SchemaNode → List Json
  | [] => []
  | n :: rest => SchemaNode.toJson n :: schemaListToJson rest

end

theorem schemaListToJson_eq_map (l : List SchemaNode) :
    schemaListToJson l = l.map SchemaNode.toJson := by
  induction l with
  | nil => rfl
  | cons n rest ih => simp [schemaListToJson, ih]

theorem toJson_leaf_name (a t : String) :
    (SchemaNode.toJson (.leaf a t)).getField "argument_name" = .str a := rfl

theorem toJson_leaf_type (a t : String) :
    (SchemaNode.toJson (.leaf a t)).getField "argument_type" = .str t := rfl

theorem toJson_group_name (a : String) (cs : List SchemaNode) :
    (SchemaNode.toJson (.group a cs)).getField "argument_name" = .str a := rfl

theorem toJson_group_type (a : String) (cs : List SchemaNode) :
    (SchemaNode.toJson (.group a cs)).getField "argument_type" =
      .arr (schemaListToJson cs) := rfl

mutual

/-- Structural size of a schema tree (the recursion fuel of the reference
breadth-first traversal). -/
def schemaSize : SchemaNode → Nat
  | .leaf _ _ => 1
  | .group _ cs => 1 + schemaSizeList cs

def schemaSizeList : List SchemaNode → Nat
  | [] => 1
  | n :: rest => 1 + schemaSize n + schemaSizeList rest

end

theorem sum_map_schemaSize_lt (l : List SchemaNode) :
    (l.map schemaSize).sum < schemaSizeList l := by
  induction l with
  | nil => simp [schemaSizeList]
  | cons n rest ih =>
    simp only [List.map_cons, List.sum_cons, schemaSizeList]
    omega

/-- Specification-side qualified-name rule, written from the words of the
specification: `parent.child_name` for a named child, `parent[index]` for
an unnamed child, `[index]` at the unnamed root (a named root node is
qualified by its name alone). -/
def specQualName (parent childName : String) (idx : Nat) : String :=
  if parent = "" then
    if childName = "" then "[" ++ renderNat idx ++ "]" else childName
  else
    if childName = "" then parent ++ "[" ++ renderNat idx ++ "]"
    else parent ++ "." ++ childName

theorem qualifiedName_eq_specQualName (p c : String) (i : Nat) :
    qualifiedName p c i = specQualName p c i := by
  unfold qualifiedName specQualName
  split <;> simp_all

/-- Total schema size of a reference traversal queue of
`(parent qualified name, index, node)` triples. -/
def specQueueSize (q : List (String × Nat × SchemaNode)) : Nat :=
  (q.map (fun e => schemaSize e.2.2)).sum

/-- Fuel-bounded reference breadth-first flattening, written from the words
of the flattening rule: a leaf at the front of the queue emits
`(qualified name, leaf type)`; a group at the front emits nothing and
enqueues its children at the BACK of the queue — after every node already
pending — in declaration order, each tagged with the qualified name of the
group as parent and its position as index.  The fuel only bounds the
recursion depth (`specBfs` supplies `specQueueSize q + 1`, which provably
suffices, see `specBfsF_fuel`). -/
def specBfsF : Nat → List (String × Nat × SchemaNode) → List (String × String)
  | _, [] => []
  | 0, _ :: _ => []
  | fuel + 1, (pname, i, .leaf a t) :: rest =>
    (specQualName pname a i, t) :: specBfsF fuel rest
  | fuel + 1, (pname, i, .group a cs) :: rest =>
    specBfsF fuel
      (rest ++ cs.enum.map (fun (p : Nat × SchemaNode) => (specQualName pname a i, p.1, p.2)))

/-- The reference breadth-first flattening of a schema queue. -/
def specBfs (q : List (String × Nat × SchemaNode)) : List (String × String) :=
  specBfsF (specQueueSize q + 1) q

theorem specQueueSize_append (a b : List (String × Nat × SchemaNode)) :
    specQueueSize (a ++ b) = specQueueSize a + specQueueSize b := by
  simp [specQueueSize]

theorem specQueueSize_enum_map (pname : String) (cs : List SchemaNode) :
    specQueueSize (cs.enum.map (fun (p : Nat × SchemaNode) => (pname, p.1, p.2))) =
      (cs.map schemaSize).sum := by
  unfold specQueueSize
  rw [List.map_map]
  have h1 : ((fun (e : String × Nat × SchemaNode) => schemaSize e.2.2) ∘
      fun (p : Nat × SchemaNode) => (pname, p.1, p.2)) =
      (fun (n : SchemaNode) => schemaSize n) ∘ Prod.snd := rfl
  rw [h1, ← List.map_map, List.enum_map_snd]

theorem specQueueSize_cons_leaf (pname : String) (i : Nat) (a t : String)
    (rest : List (String × Nat × SchemaNode)) :
    specQueueSize ((pname, i, SchemaNode.leaf a t) :: rest) = 1 + specQueueSize rest := by
  simp [specQueueSize, schemaSize]

theorem specQueueSize_cons_group (pname : String) (i : Nat) (a : String)
    (cs : List SchemaNode) (rest : List (String × Nat × SchemaNode)) :
    specQueueSize ((pname, i, SchemaNode.group a cs) :: rest) =
      1 + schemaSizeList cs + specQueueSize rest := by
  simp [specQueueSize, schemaSize]

/-- Any fuel above `specQueueSize q` computes the same reference result as
`specBfs`: the fuel-exhaustion branch of `specBfsF` is dead code. -/
theorem specBfsF_fuel (fuel : Nat) (q : List (String × Nat × SchemaNode))
    (h : specQueueSize q < fuel) : specBfsF fuel q = specBfs q := by
  induction fuel using Nat.strong_induction_on generalizing q with
  | _ fuel ih =>
    match fuel, q with
    | f, [] =>
      have e1 : ∀ g, specBfsF g [] = [] := fun g => by cases g <;> rfl
      rw [e1]
      unfold specBfs
      rw [e1]
    | 0, _ :: _ => omega
    | fuel + 1, (pname, i, SchemaNode.leaf a t) :: rest =>
      unfold specBfs
      generalize hg : specQueueSize ((pname, i, SchemaNode.leaf a t) :: rest) + 1 = fuel2
      have hq : specQueueSize ((pname, i, SchemaNode.leaf a t) :: rest) =
          1 + specQueueSize rest := specQueueSize_cons_leaf pname i a t rest
      match fuel2 with
      | 0 => omega
      | fuel2 + 1 =>
        unfold specBfsF
        have h1 : specQueueSize rest < fuel := by omega
        have h2 : specQueueSize rest < fuel2 := by omega
        rw [ih fuel (by omega) rest h1, ih fuel2 (by omega) rest h2]
    | fuel + 1, (pname, i, SchemaNode.group a cs) :: rest =>
      unfold specBfs
      generalize hg : specQueueSize ((pname, i, SchemaNode.group a cs) :: rest) + 1 = fuel2
      have hq : specQueueSize ((pname, i, SchemaNode.group a cs) :: rest) =
          1 + schemaSizeList cs + specQueueSize rest := specQueueSize_cons_group pname i a cs rest
      have hsum := sum_map_schemaSize_lt cs
      have hqs : specQueueSize (rest ++ cs.enum.map
          (fun (p : Nat × SchemaNode) => (specQualName pname a i, p.1, p.2))) <
          specQueueSize ((pname, i, SchemaNode.group a cs) :: rest) := by
        rw [specQueueSize_append, specQueueSize_enum_map, hq]
        omega
      match fuel2 with
      | 0 => omega
      | fuel2 + 1 =>
        unfold specBfsF
        have h1 : _ < fuel := lt_of_lt_of_le hqs (by omega)
        have h2 : _ < fuel2 := lt_of_lt_of_le hqs (by omega)
        rw [ih fuel (by omega) _ h1, ih fuel2 (by omega) _ h2]

/-- Reference BFS step, leaf at the front of the queue. -/
theorem specBfs_cons_leaf (pname : String) (i : Nat) (a t : String)
    (rest : List (String × Nat × SchemaNode)) :
    specBfs ((pname, i, SchemaNode.leaf a t) :: rest) =
      (specQualName pname a i, t) :: specBfs rest := by
  conv_lhs => unfold specBfs
  unfold specBfsF
  rw [specBfsF_fuel _ rest (by rw [specQueueSize_cons_leaf]; omega)]

/-- Reference BFS step, group at the front of the queue: the children go to
the back. -/
theorem specBfs_cons_group (pname : String) (i : Nat) (a : String) (cs : List SchemaNode)
    (rest : List (String × Nat × SchemaNode)) :
    specBfs ((pname, i, SchemaNode.group a cs) :: rest) =
      specBfs (rest ++ cs.enum.map
        (fun (p : Nat × SchemaNode) => (specQualName pname a i, p.1, p.2))) := by
  conv_lhs => unfold specBfs
  unfold specBfsF
  rw [specBfsF_fuel _ _ (by
    rw [specQueueSize_append, specQueueSize_enum_map, specQueueSize_cons_group]
    have := sum_map_schemaSize_lt cs
    omega)]

/-- BFS step equation of the source flattener, leaf at the front: a queue
node whose `argument_type` is a string emits its qualified name and leaf
type, and the traversal continues with the rest of the queue unchanged —
declaration order is preserved. -/
theorem flattenLoop_cons_leaf (nv : NamedValue) (rest : List NamedValue) (t : String)
    (h : nv.value.getField "argument_type" = .str t) :
    flattenLoop (nv :: rest) =
      (match flattenLoop rest with
       | .error e => .error e
       | .ok l => .ok ((qualifiedName nv.name
           (((nv.value.getField "argument_name").asStr).getD "") nv.idx, t) :: l)) := by
  conv_lhs => unfold flattenLoop
  unfold flattenLoopF
  simp only [h]
  rw [flattenLoopF_fuel _ rest (by
    rw [queueSize_cons]
    have := jsonSize_pos nv.value
    omega)]

/-- BFS step equation of the source flattener, group at the front: a queue
node whose `argument_type` is an array emits nothing, and its children are
enqueued at the BACK of the queue — after every already-pending node — in
declaration order, each carrying the qualified name of the group as parent
name and its position as index.  The children of a group are therefore
visited only after all later siblings of the group (breadth-first
discipline). -/
theorem flattenLoop_cons_group (nv : NamedValue) (rest : List NamedValue) (l : List Json)
    (h : nv.value.getField "argument_type" = .arr l) :
    flattenLoop (nv :: rest) =
      flattenLoop (rest ++ l.enum.map (fun (p : Nat × Json) => NamedValue.mk
        (qualifiedName nv.name (((nv.value.getField "argument_name").asStr).getD "") nv.idx)
        p.1 p.2)) := by
  conv_lhs => unfold flattenLoop
  unfold flattenLoopF
  simp only [h]
  rw [flattenLoopF_fuel _ _ (by
    have hle := jsonSize_getField_le nv.value "argument_type"
    rw [h] at hle
    have hsum := sum_map_jsonSize_lt_arr l
    have harr : jsonSize (Json.arr l) = 1 + jsonSizeArr l := rfl
    rw [queueSize_append, queueSize_enum_map, queueSize_cons]
    omega)]

/-- On every queue of well-formed schema nodes — hence on every nested
schema, of arbitrary depth and naming — the source flattening loop succeeds
and returns exactly the reference breadth-first flattening. -/
theorem flattenLoop_eq_specBfs_aux (n : Nat) (q : List (String × Nat × SchemaNode))
    (hq : specQueueSize q < n) :
    flattenLoop (q.map (fun e => NamedValue.mk e.1 e.2.1 (SchemaNode.toJson e.2.2))) =
      .ok (specBfs q) := by
  induction n using Nat.strong_induction_on generalizing q with
  | _ n ih =>
    match q with
    | [] => rfl
    | (pname, i, SchemaNode.leaf a t) :: rest =>
      simp only [List.map_cons]
      rw [flattenLoop_cons_leaf (NamedValue.mk pname i (SchemaNode.toJson (.leaf a t)))
        (rest.map (fun e => NamedValue.mk e.1 e.2.1 (SchemaNode.toJson e.2.2))) t rfl]
      have hlt : specQueueSize rest < specQueueSize ((pname, i, SchemaNode.leaf a t) :: rest) := by
        rw [specQueueSize_cons_leaf]
        omega
      have hrest : flattenLoop (rest.map (fun e =>
          NamedValue.mk e.1 e.2.1 (SchemaNode.toJson e.2.2))) = .ok (specBfs rest) :=
        ih (specQueueSize ((pname, i, SchemaNode.leaf a t) :: rest)) hq rest hlt
      simp only [hrest, toJson_leaf_name, Json.asStr, Option.getD_some]
      rw [specBfs_cons_leaf, qualifiedName_eq_specQualName]
    | (pname, i, SchemaNode.group a cs) :: rest =>
      simp only [List.map_cons]
      rw [flattenLoop_cons_group (NamedValue.mk pname i (SchemaNode.toJson (.group a cs)))
        (rest.map (fun e => NamedValue.mk e.1 e.2.1 (SchemaNode.toJson e.2.2)))
        (schemaListToJson cs) rfl]
      simp only [toJson_group_name, Json.asStr, Option.getD_some]
      rw [qualifiedName_eq_specQualName]
      have hqueue : (schemaListToJson cs).enum.map
          (fun (p : Nat × Json) => NamedValue.mk (specQualName pname a i) p.1 p.2) =
          (cs.enum.map (fun (p : Nat × SchemaNode) => (specQualName pname a i, p.1, p.2))).map
            (fun e => NamedValue.mk e.1 e.2.1 (SchemaNode.toJson e.2.2)) := by
        rw [schemaListToJson_eq_map, List.enum_map, List.map_map, List.map_map]
        apply List.map_congr_left
        intro p hp
        obtain ⟨j, node⟩ := p
        rfl
      rw [hqueue, ← List.map_append]
      have hlt : specQueueSize (rest ++ cs.enum.map
          (fun (p : Nat × SchemaNode) => (specQualName pname a i, p.1, p.2))) <
          specQueueSize ((pname, i, SchemaNode.group a cs) :: rest) := by
        rw [specQueueSize_append, specQueueSize_enum_map, specQueueSize_cons_group]
        have := sum_map_schemaSize_lt cs
        omega
      rw [ih (specQueueSize ((pname, i, SchemaNode.group a cs) :: rest)) hq _ hlt]
      rw [specBfs_cons_group]

/-- The source flattener equals the reference breadth-first flattening on
every queue of schema nodes. -/
theorem flattenLoop_eq_specBfs (q : List (String × Nat × SchemaNode)) :
    flattenLoop (q.map (fun e => NamedValue.mk e.1 e.2.1 (SchemaNode.toJson e.2.2))) =
      .ok (specBfs q) :=
  flattenLoop_eq_specBfs_aux (specQueueSize q + 1) q (by omega)

/-- The full structured-decode pipeline on an arbitrary nested schema:
seeding, flattening and decoding agree with decoding the reference
breadth-first leaf list against the buffer. -/
theorem parse_schema_eq_specBfs (nodes : List SchemaNode) (buf : List Nat) :
    parse_call_result_from_schema buf (Json.arr (nodes.map SchemaNode.toJson)) =
      (match decodeLoop buf (specBfs (nodes.enum.map
          (fun (p : Nat × SchemaNode) => ("", p.1, p.2)))) 0 with
       | .error e => .error e
       | .ok (result, _) => .ok result) := by
  have hinit : (nodes.map SchemaNode.toJson).enum.map
      (fun (p : Nat × Json) => NamedValue.mk "" p.1 p.2) =
      (nodes.enum.map (fun (p : Nat × SchemaNode) => (("" : String), p.1, p.2))).map
        (fun e => NamedValue.mk e.1 e.2.1 (SchemaNode.toJson e.2.2)) := by
    rw [List.enum_map, List.map_map, List.map_map]
    apply List.map_congr_left
    intro p hp
    obtain ⟨j, node⟩ := p
    rfl
  rw [show parse_call_result_from_schema buf (Json.arr (nodes.map SchemaNode.toJson)) =
    (match flattenLoop ((nodes.map SchemaNode.toJson).enum.map
        (fun (p : Nat × Json) => NamedValue.mk "" p.1 p.2)) with
     | .error e => .error e
     | .ok data_types =>
       match decodeLoop buf data_types 0 with
       | .error e => .error e
       | .ok (result, _) => .ok result) from rfl]
  rw [hinit, flattenLoop_eq_specBfs]

/-- Consecutive-byte-range step of the structured decoder: a leaf that
decodes with `n` consumed bytes contributes its pair, and the next leaf is
decoded starting exactly at `pos + n` — the flattened leaves consume
consecutive ranges of the buffer in flattening order. -/
theorem decodeLoop_cons_ok (buf : List Nat) (name dt : String)
    (rest : List (String × String)) (pos : Nat) (r : String) (n : Nat)
    (h : deserialize_primitive_argument_value (buf.drop pos) dt = .ok (some (r, n))) :
    decodeLoop buf ((name, dt) :: rest) pos =
      (match decodeLoop buf rest (pos + n) with
       | .error e => .error e
       | .ok (l, p) => .ok ((name, r) :: l, p)) := by
  conv_lhs => unfold decodeLoop
  simp only [h]

/-- C8: for every nested schema, flattening visits nodes breadth-first
preserving declaration order and assigns each leaf its qualified name
(`parent.child_name` for a named child, `parent[index]` for an unnamed
child, `[index]` at the unnamed root), and structured decoding then decodes
the leaves in exactly that order against consecutive byte ranges of the
buffer.  The conjuncts: (1) the leaf step of the source flattener emits in
queue order; (2) the group step enqueues children at the back of the queue
— after all pending siblings — under the qualified name of the group;
(3) on EVERY nested schema (arbitrary depth and naming, generated by
`SchemaNode`) the full pipeline equals decoding the reference breadth-first
leaf list `specBfs`, written directly from the words of the specification;
(4) a decoded leaf consuming `n` bytes makes the next leaf decode start
exactly at `pos + n` (consecutive byte ranges); (5) a root array of leaves
flattens to the declaration-order list of qualified names; (6)-(7) the
cited three-leaf schema flattens in order and decodes bytes `00 01 02 03`
to `[0]↦0, [1]↦true, [2]↦770`; (8)-(9) the nested schema
`[group [u8, u8], u16]` flattens to `[1]` BEFORE `[0][0]`, `[0][1]` — the
children of the group are visited after the later root sibling of the
group, with `parent[index]` names — and decodes bytes `01 02 03 04` to
`513, 3, 4` in that order; (10) the named nested Person schema decodes
with `parent.child_name` qualified names against consecutive ranges of a
borsh buffer. -/
theorem C8_flatten_order :
    (∀ (nv : NamedValue) (rest : List NamedValue) (t : String),
      nv.value.getField "argument_type" = .str t →
      flattenLoop (nv :: rest) =
        (match flattenLoop rest with
         | .error e => .error e
         | .ok l => .ok ((qualifiedName nv.name
             (((nv.value.getField "argument_name").asStr).getD "") nv.idx, t) :: l))) ∧
    (∀ (nv : NamedValue) (rest : List NamedValue) (l : List Json),
      nv.value.getField "argument_type" = .arr l →
      flattenLoop (nv :: rest) =
        flattenLoop (rest ++ l.enum.map (fun (p : Nat × Json) => NamedValue.mk
          (qualifiedName nv.name (((nv.value.getField "argument_name").asStr).getD "") nv.idx)
          p.1 p.2))) ∧
    (∀ (nodes : List SchemaNode) (buf : List Nat),
      parse_call_result_from_schema buf (Json.arr (nodes.map SchemaNode.toJson)) =
        (match decodeLoop buf (specBfs (nodes.enum.map
            (fun (p : Nat × SchemaNode) => ("", p.1, p.2)))) 0 with
         | .error e => .error e
         | .ok (result, _) => .ok result)) ∧
    (∀ (buf : List Nat) (name dt : String) (rest : List (String × String))
        (pos : Nat) (r : String) (n : Nat),
      deserialize_primitive_argument_value (buf.drop pos) dt = .ok (some (r, n)) →
      decodeLoop buf ((name, dt) :: rest) pos =
        (match decodeLoop buf rest (pos + n) with
         | .error e => .error e
         | .ok (l, p) => .ok ((name, r) :: l, p))) ∧
    (∀ (leaves : List (String × String)),
      flattenLoop (((leaves.map (fun p => mkLeaf p.1 p.2)).enum).map
          (fun (p : Nat × Json) => NamedValue.mk "" p.1 p.2)) =
        .ok (leaves.enum.map (fun (q : Nat × (String × String)) =>
          (qualifiedName "" q.2.1 q.1, q.2.2)))) ∧
    flattenLoop ([Json.obj [("argument_type", Json.str "u8")],
                  Json.obj [("argument_type", Json.str "bool")],
                  Json.obj [("argument_type", Json.str "u16")]].enum.map
        (fun (p : Nat × Json) => NamedValue.mk "" p.1 p.2)) =
      .ok [("[0]", "u8"), ("[1]", "bool"), ("[2]", "u16")] ∧
    parse_call_result_from_schema [0, 1, 2, 3]
      (Json.arr [Json.obj [("argument_type", Json.str "u8")],
                 Json.obj [("argument_type", Json.str "bool")],
                 Json.obj [("argument_type", Json.str "u16")]]) =
      .ok [("[0]", "0"), ("[1]", "true"), ("[2]", "770")] ∧
    flattenLoop ([SchemaNode.toJson (.group "" [.leaf "" "u8", .leaf "" "u8"]),
                  SchemaNode.toJson (.leaf "" "u16")].enum.map
        (fun (p : Nat × Json) => NamedValue.mk "" p.1 p.2)) =
      .ok [("[1]", "u16"), ("[0][0]", "u8"), ("[0][1]", "u8")] ∧
    parse_call_result_from_schema [1, 2, 3, 4]
      (Json.arr [SchemaNode.toJson (.group "" [.leaf "" "u8", .leaf "" "u8"]),
                 SchemaNode.toJson (.leaf "" "u16")]) =
      .ok [("[1]", "513"), ("[0][0]", "3"), ("[0][1]", "4")] ∧
    parse_call_result_from_schema
      [3, 0, 0, 0, 84, 111, 109,
       100, 0, 0, 0, 0, 0, 0, 0,
       2, 0, 0, 0, 5, 0, 0, 0, 74, 97, 115, 111, 110, 3, 0, 0, 0, 75, 97, 121]
      (SchemaNode.toJson (.group "Person"
        [.leaf "name" "String", .leaf "balance" "u64",
         .group "friends" [.leaf "" "Vec<String>"]])) =
      .ok [("Person.name", "\"Tom\""), ("Person.balance", "100"),
           ("Person.friends[0]", "[\"Jason\", \"Kay\"]")] := by
  refine ⟨flattenLoop_cons_leaf, flattenLoop_cons_group, parse_schema_eq_specBfs,
    decodeLoop_cons_ok, ?_, ?_, ?_, ?_, ?_, ?_⟩
  · intro leaves
    rw [List.enum_map, List.map_map]
    rw [flattenLoop_leafqueue]
    · rw [List.map_map]
      apply congrArg
      apply List.map_congr_left
      intro q hq
      obtain ⟨i, a, t⟩ := q
      rfl
    · intro nv hnv
      rw [List.mem_map] at hnv
      obtain ⟨q, hq2, rfl⟩ := hnv
      obtain ⟨i, a, t⟩ := q
      exact ⟨a, t, rfl⟩
  · decide
  · decide
  · decide
  · decide
  · decide

/-- C8 witness: the step equations applied at concrete inputs — the group
`[u8, u8]` in front of a pending `u16` sends its children behind the
`u16`; a leaf in front emits first; a decoded `u16` consuming two bytes
makes the next leaf start at byte 2. -/
theorem C8_flatten_order_witness :
    (flattenLoop [NamedValue.mk "" 0 (SchemaNode.toJson (.group "" [.leaf "" "u8", .leaf "" "u8"])),
                  NamedValue.mk "" 1 (SchemaNode.toJson (.leaf "" "u16"))] =
      flattenLoop ([NamedValue.mk "" 1 (SchemaNode.toJson (.leaf "" "u16"))] ++
        (schemaListToJson [.leaf "" "u8", .leaf "" "u8"]).enum.map
          (fun (p : Nat × Json) => NamedValue.mk "[0]" p.1 p.2))) ∧
    (flattenLoop [NamedValue.mk "" 1 (SchemaNode.toJson (.leaf "" "u16"))] =
      .ok [("[1]", "u16")]) ∧
    (decodeLoop [1, 2, 3, 4] [("[1]", "u16"), ("[0][0]", "u8"), ("[0][1]", "u8")] 0 =
      match decodeLoop [1, 2, 3, 4] [("[0][0]", "u8"), ("[0][1]", "u8")] (0 + 2) with
      | .error e => .error e
      | .ok (l, p) => .ok (("[1]", "513") :: l, p)) := by
  refine ⟨?_, ?_, ?_⟩
  · exact (C8_flatten_order.2.1
      (NamedValue.mk "" 0 (SchemaNode.toJson (.group "" [.leaf "" "u8", .leaf "" "u8"])))
      [NamedValue.mk "" 1 (SchemaNode.toJson (.leaf "" "u16"))]
      (schemaListToJson [.leaf "" "u8", .leaf "" "u8"]) rfl).trans (by decide)
  · exact (C8_flatten_order.1
      (NamedValue.mk "" 1 (SchemaNode.toJson (.leaf "" "u16"))) [] "u16" rfl).trans (by decide)
  · exact C8_flatten_order.2.2.2.1 [1, 2, 3, 4] "[1]" "u16"
      [("[0][0]", "u8"), ("[0][1]", "u8")] 0 "513" 2 (by decide)

/-- C9: the codec returns error values rather than panicking — in this
model every operation is total — and the panic-relevant invariant of the
structured decoder holds: one leaf decode never reports more consumed bytes
than the buffer suffix it was given, so the cursor of the decode loop never
exceeds the buffer length and the slice taken at the cursor is always in
bounds. -/
theorem C9_no_out_of_bounds :
    (∀ (buf : List Nat) (dt r : String) (n : Nat),
      deserialize_primitive_argument_value buf dt = .ok (some (r, n)) → n ≤ buf.length) ∧
    (∀ (leaves : List (String × String)) (buf : List Nat) (pos : Nat)
        (res : List (String × String)) (pos' : Nat),
      pos ≤ buf.length → decodeLoop buf leaves pos = .ok (res, pos') →
      pos' ≤ buf.length) := by
  have part1 : ∀ (buf : List Nat) (dt r : String) (n : Nat),
      deserialize_primitive_argument_value buf dt = .ok (some (r, n)) → n ≤ buf.length := by
    intro buf dt r n h
    unfold deserialize_primitive_argument_value at h
    cases hfind : decodeTys.find? (fun u => u.name == sanitize_argument_type dt) with
    | none => rw [hfind] at h; simp at h
    | some t =>
      rw [hfind] at h
      simp only [] at h
      cases hdes : t.deser buf with
      | error e => rw [hdes] at h; simp at h
      | ok p =>
        obtain ⟨v, rest⟩ := p
        rw [hdes] at h
        simp at h
        omega
  refine ⟨part1, ?_⟩
  intro leaves
  induction leaves with
  | nil =>
    intro buf pos res pos' h1 h2
    unfold decodeLoop at h2
    simp at h2
    omega
  | cons hd rest ih =>
    intro buf pos res pos' h1 h2
    obtain ⟨name, dt⟩ := hd
    unfold decodeLoop at h2
    cases hdes : deserialize_primitive_argument_value (buf.drop pos) dt with
    | error e => rw [hdes] at h2; simp at h2
    | ok o =>
      rw [hdes] at h2
      cases o with
      | none => exact ih buf pos res pos' h1 h2
      | some p =>
        obtain ⟨r, n⟩ := p
        simp only [] at h2
        have hn : n ≤ (buf.drop pos).length := part1 (buf.drop pos) dt r n hdes
        rw [List.length_drop] at hn
        cases hloop : decodeLoop buf rest (pos + n) with
        | error e => rw [hloop] at h2; simp at h2
        | ok q =>
          obtain ⟨l, p2⟩ := q
          rw [hloop] at h2
          simp at h2
          have := ih buf (pos + n) l p2 (by omega) hloop
          omega

/-- C9 witness: the consumption bound applied at type `u8` over the
one-byte buffer `[7]`, and the cursor bound applied at a two-leaf schema
over the buffer `[7, 1]` starting at cursor 0. -/
theorem C9_no_out_of_bounds_witness :
    (1 : Nat) ≤ ([7] : List Nat).length ∧ (2 : Nat) ≤ ([7, 1] : List Nat).length :=
  ⟨C9_no_out_of_bounds.1 [7] "u8" "7" 1 (by decide),
   C9_no_out_of_bounds.2 [("a", "u8"), ("b", "bool")] [7, 1] 0
     [("a", "7"), ("b", "true")] 2 (by decide) (by decide)⟩

theorem qualifiedName_root_named (s : String) (i : Nat) (hs : s ≠ "") :
    qualifiedName "" s i = s := by
  unfold qualifiedName
  split <;> simp_all

theorem qualifiedName_child_unnamed (s : String) (i : Nat) (hs : s ≠ "") :
    qualifiedName s "" i = s ++ "[" ++ renderNat i ++ "]" := by
  unfold qualifiedName
  split <;> simp_all

theorem qualifiedName_child_named (s a : String) (i : Nat) (hs : s ≠ "") (ha : a ≠ "") :
    qualifiedName s a i = s ++ "." ++ a := by
  unfold qualifiedName
  split <;> simp_all

/-- C10: a root schema node carrying an `argument_name` is qualified by that
name alone — a named root leaf produces a pair named exactly its
`argument_name`, and the children of a named root group are qualified as
`name.child_name` (named child) or `name[index]` (unnamed child) — while the
positional label `[index]` is used only when `argument_name` is absent. -/
theorem C10_named_root :
    (∀ (s : String) (i : Nat), s ≠ "" → qualifiedName "" s i = s) ∧
    (∀ (s : String) (i : Nat), s ≠ "" →
      qualifiedName s "" i = s ++ "[" ++ renderNat i ++ "]") ∧
    (∀ (s a : String) (i : Nat), s ≠ "" → a ≠ "" →
      qualifiedName s a i = s ++ "." ++ a) ∧
    (∀ (s t : String), s ≠ "" →
      flattenLoop [NamedValue.mk "" 0 (mkLeaf s t)] = .ok [(s, t)]) ∧
    (∀ (s : String) (children : List (String × String)), s ≠ "" →
      flattenLoop [NamedValue.mk "" 0 (Json.obj [("argument_name", .str s),
          ("argument_type", .arr (children.map (fun p => mkLeaf p.1 p.2)))])] =
        .ok (children.enum.map (fun (q : Nat × (String × String)) =>
          (qualifiedName s q.2.1 q.1, q.2.2)))) ∧
    (∀ t : String,
      flattenLoop [NamedValue.mk "" 0 (Json.obj [("argument_type", Json.str t)])] =
        .ok [("[0]", t)]) := by
  refine ⟨qualifiedName_root_named, qualifiedName_child_unnamed, qualifiedName_child_named,
    ?_, ?_, ?_⟩
  · intro s t hs
    rw [flattenLoop_leafqueue _ (by intro nv hnv; simp at hnv; rw [hnv]; exact ⟨s, t, rfl⟩)]
    simp only [List.map_cons, List.map_nil, getField_mkLeaf_type, getField_mkLeaf_name,
      Json.asStr, Option.getD_some]
    rw [qualifiedName_root_named s 0 hs]
  · intro s children hs
    unfold flattenLoop
    have hq : queueSize [NamedValue.mk "" 0 (Json.obj [("argument_name", .str s),
        ("argument_type", .arr (children.map (fun p => mkLeaf p.1 p.2)))])] =
        6 + jsonSizeArr (children.map (fun p => mkLeaf p.1 p.2)) := by
      simp [queueSize, jsonSize, jsonSizeObj]
      omega
    rw [hq]
    unfold flattenLoopF
    rw [show (Json.getField (Json.obj [("argument_name", .str s),
        ("argument_type", .arr (children.map (fun p => mkLeaf p.1 p.2)))]) "argument_name")
      = .str s from rfl]
    rw [show (Json.getField (Json.obj [("argument_name", .str s),
        ("argument_type", .arr (children.map (fun p => mkLeaf p.1 p.2)))]) "argument_type")
      = .arr (children.map (fun p => mkLeaf p.1 p.2)) from rfl]
    simp only [Json.asStr, Option.getD_some, List.nil_append]
    rw [qualifiedName_root_named s 0 hs]
    rw [flattenLoopF_fuel _ _ (by
      rw [queueSize_enum_map]
      have h1 := sum_map_jsonSize_lt_arr (children.map (fun p => mkLeaf p.1 p.2))
      omega)]
    rw [List.enum_map, List.map_map]
    rw [flattenLoop_leafqueue _ (by
      intro nv hnv
      rw [List.mem_map] at hnv
      obtain ⟨q, hq2, rfl⟩ := hnv
      obtain ⟨i, a, t⟩ := q
      exact ⟨a, t, rfl⟩)]
    rw [List.map_map]
    apply congrArg
    apply List.map_congr_left
    intro q hq2
    obtain ⟨i, a, t⟩ := q
    rfl
  · intro t
    rfl

/-- C10 witness: the named-root statements applied at root name `Person`
with a named and an unnamed child. -/
theorem C10_named_root_witness :
    flattenLoop [NamedValue.mk "" 0 (mkLeaf "Person" "String")] =
      .ok [("Person", "String")] ∧
    flattenLoop [NamedValue.mk "" 0 (Json.obj [("argument_name", .str "Person"),
        ("argument_type", .arr ([("name", "String"), ("", "u64")].map
          (fun p => mkLeaf p.1 p.2)))])] =
      .ok [("Person.name", "String"), ("Person[1]", "u64")] :=
  ⟨C10_named_root.2.2.2.1 "Person" "String" (by decide),
   (C10_named_root.2.2.2.2.1 "Person" [("name", "String"), ("", "u64")] (by decide)).trans
     (by decide)⟩
